import Mathlib

/-!
Verification development for the dual-loop memory engine of the KiraAI
repository.  The Python sources under src/core/chat and src/data/tools are
shallowly embedded as pure Lean functions:

- floating point numbers are modelled as rationals;
- the transcendental float power 0.5 ** x of the retention score is modelled
  as an explicit function parameter hpow (both the code translation and the
  spec formula use the same parameter, so every theorem about the score is
  parametric in the interpretation of the power);
- the ChromaDB collection is modelled as an association list from id to a
  stored record (content, vector, metadata); its approximate-nearest-neighbor
  query, an external library call, is modelled as an oracle parameter;
- LLM chat and embedding calls, which live outside the repository, are
  modelled as oracle parameters; an empty embedding list models both a failed
  call and a falsy result, exactly the two cases the Python code collapses;
- exceptions are modelled with Option / result flags.
-/

namespace Kira

/-! ### Association list helpers (Python dict semantics: insertion order
preserved, assignment replaces in place or appends at the end) -/

def lookupA {κ ν : Type} [DecidableEq κ] : List (κ × ν) → κ → Option ν
  | [], _ => none
  | (k, v) :: rest, k0 => if k = k0 then some v else lookupA rest k0

def setA {κ ν : Type} [DecidableEq κ] : List (κ × ν) → κ → ν → List (κ × ν)
  | [], k0, v0 => [(k0, v0)]
  | (k, v) :: rest, k0, v0 =>
    if k = k0 then (k0, v0) :: rest else (k, v) :: setA rest k0 v0

def eraseA {κ ν : Type} [DecidableEq κ] : List (κ × ν) → κ → List (κ × ν)
  | [], _ => []
  | (k, v) :: rest, k0 => if k = k0 then rest else (k, v) :: eraseA rest k0

theorem lookupA_setA_self {κ ν : Type} [DecidableEq κ]
    (l : List (κ × ν)) (k : κ) (v : ν) : lookupA (setA l k v) k = some v := by
  induction l with
  | nil => simp [setA, lookupA]
  | cons hd tl ih =>
    obtain ⟨k0, v0⟩ := hd
    by_cases h : k0 = k <;> simp [setA, lookupA, h, ih]

theorem lookupA_setA_ne {κ ν : Type} [DecidableEq κ]
    (l : List (κ × ν)) (k k0 : κ) (v : ν) (h : k ≠ k0) :
    lookupA (setA l k v) k0 = lookupA l k0 := by
  induction l with
  | nil => simp [setA, lookupA, h]
  | cons hd tl ih =>
    obtain ⟨k1, v1⟩ := hd
    by_cases h1 : k1 = k
    · subst h1; simp [setA, lookupA, h]
    · simp [setA, h1, lookupA, ih]

theorem lookupA_eq_none_of_not_mem {κ ν : Type} [DecidableEq κ]
    (l : List (κ × ν)) (k : κ) (h : k ∉ l.map Prod.fst) : lookupA l k = none := by
  induction l with
  | nil => rfl
  | cons hd tl ih =>
    obtain ⟨k0, v0⟩ := hd
    simp only [List.map_cons, List.mem_cons, not_or] at h
    have hne : ¬k0 = k := fun he => h.1 he.symm
    simp [lookupA, hne, ih h.2]

theorem lookupA_eraseA_self {κ ν : Type} [DecidableEq κ]
    (l : List (κ × ν)) (k : κ) (hnd : (l.map Prod.fst).Nodup) :
    lookupA (eraseA l k) k = none := by
  induction l with
  | nil => simp [eraseA, lookupA]
  | cons hd tl ih =>
    obtain ⟨k0, v0⟩ := hd
    simp only [List.map_cons, List.nodup_cons] at hnd
    by_cases h : k0 = k
    · subst h
      simp only [eraseA, if_pos rfl]
      exact lookupA_eq_none_of_not_mem tl k0 hnd.1
    · simp [eraseA, h, lookupA, ih hnd.2]

theorem lookupA_eraseA_ne {κ ν : Type} [DecidableEq κ]
    (l : List (κ × ν)) (k k0 : κ) (h : k ≠ k0) :
    lookupA (eraseA l k) k0 = lookupA l k0 := by
  induction l with
  | nil => simp [eraseA]
  | cons hd tl ih =>
    obtain ⟨k1, v1⟩ := hd
    by_cases h1 : k1 = k
    · subst h1; simp [eraseA, lookupA, h]
    · simp [eraseA, h1, lookupA, ih]

/-! ### Data model (vector_store.py) -/

/-- Values stored in a ChromaDB metadata map. -/
inductive MetaVal where
  | s (v : String)
  | i (v : Int)
  | q (v : ℚ)
  | b (v : Bool)
  deriving DecidableEq, Repr

/-- A ChromaDB metadata map. -/
abbrev Meta := List (String × MetaVal)

/-- Python dict.update: fold the updates into the base map in order. -/
def mergeMeta (base : Meta) : Meta → Meta
  | [] => base
  | (k, v) :: rest => mergeMeta (setA base k v) rest

/-- MemoryEntry dataclass of vector_store.py. -/
structure MemoryEntry where
  id : String
  user_id : String
  content : String
  memory_type : String
  importance : Int := 5
  timestamp : ℚ := 0
  access_count : Int := 0
  last_accessed : ℚ := 0
  metadata : Meta := []
  deriving DecidableEq, Repr

/-- One record of the ChromaDB collection: document, embedding vector and
metadata.  In default-backed mode the library computes the vector itself. -/
structure StoredRec where
  content : String
  vector : List ℚ
  meta : Meta
  deriving DecidableEq, Repr

/-- State of the VectorStore: the external-embeddings flag, the injected
synchronous embedding function (an empty result models both a raised
exception and a falsy return value), the default embedding function of the
backing library, and the collection contents. -/
structure VSState where
  externalOnly : Bool
  embedFunc : Option (String → List ℚ)
  defaultEmbed : String → List ℚ
  entries : List (String × StoredRec)

def VSState.lookup (st : VSState) (id : String) : Option StoredRec :=
  lookupA st.entries id

/-- ChromaDB upsert: replace the record with the given id, or append. -/
def VSState.upsert (st : VSState) (id : String) (r : StoredRec) : VSState :=
  { st with entries := setA st.entries id r }

/-- Metadata built by VectorStore.add_memory from the entry fields, before
merging entry.metadata (Python: entry.timestamp or time.time()). -/
def baseMeta (e : MemoryEntry) (now : ℚ) : Meta :=
  [("user_id", .s e.user_id),
   ("memory_type", .s e.memory_type),
   ("importance", .i e.importance),
   ("timestamp", .q (if e.timestamp = 0 then now else e.timestamp)),
   ("access_count", .i e.access_count),
   ("last_accessed", .q (if e.last_accessed = 0 then now else e.last_accessed))]

/-- VectorStore.add_memory.  Returns none when the Python code raises
ValueError: an explicitly supplied empty embedding, a failing injected
embedding function, or external-only mode with no embedding available. -/
def VSState.addMemory (st : VSState) (e : MemoryEntry) (emb : Option (List ℚ))
    (now : ℚ) : Option VSState :=
  let meta := mergeMeta (baseMeta e now) e.metadata
  match emb with
  | some v =>
    if v = [] then none
    else some { (st.upsert e.id ⟨e.content, v, meta⟩) with externalOnly := true }
  | none =>
    match st.embedFunc with
    | some f =>
      let g := f e.content
      if g = [] then none
      else some { (st.upsert e.id ⟨e.content, g, meta⟩) with externalOnly := true }
    | none =>
      if st.externalOnly then none
      else some (st.upsert e.id ⟨e.content, st.defaultEmbed e.content, meta⟩)

/-- Metadata after update_memory: copy the old metadata, override importance
when given, then merge the metadata argument (dict.update). -/
def updMeta (old : Meta) (importance : Option Int) (metadata : Option Meta) :
    Meta :=
  let m1 := match importance with
    | some i => setA old "importance" (.i i)
    | none => old
  match metadata with
  | some md => mergeMeta m1 md
  | none => m1

/-- VectorStore.update_memory.  Returns the Python boolean result together
with the new store state; every refusal path leaves the state unchanged. -/
def VSState.updateMemory (st : VSState) (id : String) (content : Option String)
    (importance : Option Int) (metadata : Option Meta)
    (emb : Option (List ℚ)) : Bool × VSState :=
  if emb = some [] then (false, st)
  else
    match st.lookup id with
    | none => (false, st)
    | some old =>
      let m2 := updMeta old.meta importance metadata
      match content with
      | none => (true, st.upsert id ⟨old.content, old.vector, m2⟩)
      | some c =>
        match emb with
        | some v =>
          (true, { (st.upsert id ⟨c, v, m2⟩) with externalOnly := true })
        | none =>
          match st.embedFunc with
          | some f =>
            let g := f c
            if g = [] then (false, st)
            else (true, { (st.upsert id ⟨c, g, m2⟩) with externalOnly := true })
          | none =>
            if st.externalOnly then (false, st)
            else (true, st.upsert id ⟨c, st.defaultEmbed c, m2⟩)

/-- VectorStore.delete_memory: the backend delete may fail (ok = false),
in which case nothing changes and false is returned. -/
def VSState.deleteMemory (st : VSState) (ok : Bool) (id : String) :
    Bool × VSState :=
  if ok then (true, { st with entries := eraseA st.entries id })
  else (false, st)

/-- The vector that a successful update_memory call with a new content will
store: the supplied non-empty embedding, else one produced by the injected
embedding function, else (only in default-backed mode) the backing library
default embedding of the new content. -/
def freshVector (st : VSState) (c : String) (emb : Option (List ℚ)) :
    Option (List ℚ) :=
  match emb with
  | some v => if v = [] then none else some v
  | none =>
    match st.embedFunc with
    | some f => if f c = [] then none else some (f c)
    | none => if st.externalOnly then none else some (st.defaultEmbed c)

/-! ### Claim C1 -/

/-- C1: for every stored entry and every update_memory call supplying a new
content: in external-only mode with no valid (non-empty) embedding supplied
or producible via the injected embedding function, the call returns false and
the whole store (content, vector, metadata of every entry) is unchanged;
and whenever the call returns true, the entry stores the new content together
with the vector freshly determined by this call - new text is never stored
alongside the old vector. -/
theorem update_memory_never_splits_text_and_vector (st : VSState)
    (id c : String) (imp : Option Int) (md : Option Meta)
    (emb : Option (List ℚ)) :
    (st.externalOnly = true →
      (∀ v, emb = some v → v = []) →
      (∀ f, st.embedFunc = some f → f c = []) →
      st.updateMemory id (some c) imp md emb = (false, st)) ∧
    ((st.updateMemory id (some c) imp md emb).1 = true →
      ∃ r, (st.updateMemory id (some c) imp md emb).2.lookup id = some r ∧
        r.content = c ∧ some r.vector = freshVector st c emb) := by
  constructor
  · intro hext hemb hfun
    match emb with
    | some v =>
      have hv : v = [] := hemb v rfl
      subst hv
      simp [VSState.updateMemory]
    | none =>
      cases hlk : st.lookup id with
      | none => simp [VSState.updateMemory, hlk]
      | some old =>
        cases hef : st.embedFunc with
        | some f => simp [VSState.updateMemory, hlk, hef, hfun f hef]
        | none => simp [VSState.updateMemory, hlk, hef, hext]
  · intro hok
    match hembv : emb with
    | some v =>
      by_cases hv : v = []
      · subst hv
        simp [VSState.updateMemory] at hok
      · cases hlk : lookupA st.entries id with
        | none => simp [VSState.updateMemory, VSState.lookup, hlk, hv] at hok
        | some old =>
          refine ⟨⟨c, v, updMeta old.meta imp md⟩, ?_, rfl, ?_⟩
          · simp [VSState.updateMemory, VSState.lookup, hlk, hv, VSState.lookup,
              VSState.upsert, lookupA_setA_self]
          · simp [freshVector, hv]
    | none =>
      cases hlk : lookupA st.entries id with
      | none => simp [VSState.updateMemory, VSState.lookup, hlk] at hok
      | some old =>
        cases hef : st.embedFunc with
        | some f =>
          by_cases hg : f c = []
          · simp [VSState.updateMemory, VSState.lookup, hlk, hef, hg] at hok
          · refine ⟨⟨c, f c, updMeta old.meta imp md⟩, ?_, rfl, ?_⟩
            · simp [VSState.updateMemory, VSState.lookup, hlk, hef, hg, VSState.lookup,
                VSState.upsert, lookupA_setA_self]
            · simp [freshVector, hef, hg]
        | none =>
          cases hxo : st.externalOnly with
          | true => simp [VSState.updateMemory, VSState.lookup, hlk, hef, hxo] at hok
          | false =>
            refine ⟨⟨c, st.defaultEmbed c, updMeta old.meta imp md⟩, ?_, rfl, ?_⟩
            · simp [VSState.updateMemory, VSState.lookup, hlk, hef, hxo, VSState.lookup,
                VSState.upsert, lookupA_setA_self]
            · simp [freshVector, hef, hxo]

/-- Concrete store in external-only mode with one entry and no injected
embedding function, used by the C1 witness. -/
def wStExt : VSState :=
  { externalOnly := true, embedFunc := none,
    defaultEmbed := fun _ => [], entries := [("m1", ⟨"old", [1], []⟩)] }

/-- Witness for C1: a refused content update in external-only mode returns
false and leaves the store untouched. -/
theorem update_memory_never_splits_witness :
    wStExt.externalOnly = true ∧
    wStExt.updateMemory "m1" (some "new") none none none = (false, wStExt) :=
  ⟨rfl, (update_memory_never_splits_text_and_vector wStExt "m1" "new"
    none none none).1 rfl (fun _ h => nomatch h) (fun _ h => nomatch h)⟩

/-! ### Search (VectorStore.search) and recall (MemoryManager.recall) -/

/-- Python truthiness of an optional string argument. -/
def strTruthy : Option String → Bool
  | some s => s != ""
  | none => false

/-- Python truthiness of an optional embedding argument. -/
def embTruthy : Option (List ℚ) → Bool
  | some v => !v.isEmpty
  | none => false

/-- Request built by VectorStore.search and passed to the ChromaDB query
call (modelled as an oracle). -/
structure QueryReq where
  queryEmb : Option (List ℚ)
  queryText : Option String
  userId : Option String
  memoryType : Option String
  k : Int
  deriving DecidableEq, Repr

/-- One raw result row of the ChromaDB query. -/
structure RawHit where
  id : String
  document : String
  meta : Meta
  distance : ℚ
  deriving DecidableEq, Repr

def metaStr (m : Meta) (k d : String) : String :=
  match lookupA m k with | some (.s v) => v | _ => d

def metaInt (m : Meta) (k : String) (d : Int) : Int :=
  match lookupA m k with | some (.i v) => v | _ => d

def metaQ (m : Meta) (k : String) (d : ℚ) : ℚ :=
  match lookupA m k with | some (.q v) => v | _ => d

def stdMetaKeys : List String :=
  ["user_id", "memory_type", "importance", "timestamp",
   "access_count", "last_accessed"]

/-- The extract-extra-metadata helper of vector_store.py: keep only the
non-standard metadata keys. -/
def extractExtraMetadata (m : Meta) : Meta :=
  m.filter (fun kv => !(stdMetaKeys.contains kv.1))

/-- MemoryEntry reconstructed from a query row, with the defaults used by
vector_store.py for missing metadata. -/
def entryOfHit (h : RawHit) : MemoryEntry :=
  { id := h.id,
    user_id := metaStr h.meta "user_id" "",
    content := h.document,
    memory_type := metaStr h.meta "memory_type" "fact",
    importance := metaInt h.meta "importance" 5,
    timestamp := metaQ h.meta "timestamp" 0,
    access_count := metaInt h.meta "access_count" 0,
    last_accessed := metaQ h.meta "last_accessed" 0,
    metadata := extractExtraMetadata h.meta }

/-- The threshold skip of VectorStore.search: with a threshold set, rows
whose cosine distance exceeds it are dropped. -/
def threshSkip : Option ℚ → ℚ → Bool
  | some t, d => d > t
  | none, _ => false

/-- The result loop of VectorStore.search: threshold filtering, entry
reconstruction, and the access-count update written back to the collection
when update_access is set. -/
def processHits (threshold : Option ℚ) (updateAccess : Bool) (now : ℚ) :
    List RawHit → VSState → List MemoryEntry × VSState
  | [], st => ([], st)
  | h :: rest, st =>
    if threshSkip threshold h.distance then
      processHits threshold updateAccess now rest st
    else
      let e0 := entryOfHit h
      if updateAccess then
        let e := { e0 with access_count := e0.access_count + 1,
                           last_accessed := now }
        let newMeta := mergeMeta h.meta
          [("access_count", .i e.access_count), ("last_accessed", .q now)]
        let st1 := match lookupA st.entries h.id with
          | some r => { st with
              entries := setA st.entries h.id ⟨r.content, r.vector, newMeta⟩ }
          | none => st
        let p := processHits threshold updateAccess now rest st1
        (e :: p.1, p.2)
      else
        let p := processHits threshold updateAccess now rest st
        (e0 :: p.1, p.2)

/-- VectorStore.search.  The ChromaDB query itself is the oracle qo; the
guard rejecting text-only queries against an external-only collection is
translated from the source and does not consult the injected embedding
function. -/
def VSState.search (st : VSState) (qo : QueryReq → List RawHit)
    (queryText : Option String) (queryEmb : Option (List ℚ))
    (userId memoryType : Option String) (k : Int) (threshold : Option ℚ)
    (updateAccess : Bool) (now : ℚ) : List MemoryEntry × VSState :=
  if strTruthy queryText && !embTruthy queryEmb && st.externalOnly then
    ([], st)
  else if embTruthy queryEmb then
    processHits threshold updateAccess now
      (qo ⟨queryEmb, none, userId, memoryType, k⟩) st
  else if strTruthy queryText then
    processHits threshold updateAccess now
      (qo ⟨none, queryText, userId, memoryType, k⟩) st
  else ([], st)

/-- MemoryManager.recall.  llmEmbed models the embed method of the injected
LLM client (none when no client is set, an empty list models a failed or
falsy embedding).  The int(k) coercion is the identity here because k is
already an integer; max 1 k is the coercion to the minimum of one. -/
def mmRecall (st : VSState) (qo : QueryReq → List RawHit)
    (llmEmbed : Option (String → List ℚ)) (query : String)
    (userId : Option String) (k : Int) (now : ℚ) :
    List MemoryEntry × VSState :=
  let kk := max 1 k
  let viaText : List MemoryEntry × VSState :=
    if !st.externalOnly then
      st.search qo (some query) none userId none kk none true now
    else ([], st)
  match llmEmbed with
  | some f =>
    let e := f query
    if !e.isEmpty then st.search qo none (some e) userId none kk none true now
    else viaText
  | none => viaText

/-! ### Claim C6 -/

/-- Concrete external-only store with an injected embedding function and one
entry, used to show that VectorStore.search never consults the injected
function. -/
def wMetaB : Meta :=
  [("user_id", .s "u"), ("memory_type", .s "fact"), ("importance", .i 5),
   ("timestamp", .q 1), ("access_count", .i 0), ("last_accessed", .q 1)]

def wStC6 : VSState :=
  { externalOnly := true, embedFunc := some (fun _ => [1]),
    defaultEmbed := fun _ => [], entries := [("VB", ⟨"hello there", [1], wMetaB⟩)] }

def wHit : RawHit := ⟨"VB", "hello there", wMetaB, 0⟩

def wQo : QueryReq → List RawHit := fun _ => [wHit]

/-- Counterexample to C6 as stated: an injected embedding function is
available, yet a text-only search against the external-only index still
returns the empty list, while the same search with the converted embedding
would have returned an entry - the search does not proceed. -/
theorem search_ignores_injected_embedding_func_cex :
    (wStC6.search wQo (some "hello") none none none 5 none false 0).1 = [] ∧
    (wStC6.search wQo none (some [1]) none none 5 none false 0).1 =
      [entryOfHit wHit] ∧
    [entryOfHit wHit] ≠ ([] : List MemoryEntry) := by
  refine ⟨rfl, rfl, ?_⟩
  simp

/-- C6 amended: every text-only search (query_text supplied, query_embedding
absent or falsy) against an external-only index returns the empty list and
does not raise, regardless of the injected embedding function, which search
never consults. -/
theorem search_text_only_external_returns_empty (st : VSState)
    (qo : QueryReq → List RawHit) (t : String) (qe : Option (List ℚ))
    (uid mt : Option String) (k : Int) (th : Option ℚ) (ua : Bool) (now : ℚ)
    (hext : st.externalOnly = true) (hqe : embTruthy qe = false) :
    st.search qo (some t) qe uid mt k th ua now = ([], st) := by
  by_cases ht : t = ""
  · subst ht; simp [VSState.search, strTruthy, hqe, hext]
  · simp [VSState.search, strTruthy, ht, hqe, hext]

/-- Witness for the amended C6 at a concrete store and query. -/
theorem search_text_only_external_returns_empty_witness :
    wStC6.externalOnly = true ∧ embTruthy none = false ∧
    wStC6.search wQo (some "hello") none none none 5 none false 0 =
      ([], wStC6) :=
  ⟨rfl, rfl, search_text_only_external_returns_empty wStC6 wQo "hello" none
    none none 5 none false 0 rfl rfl⟩

/-! ### Claim C7 -/

theorem search_oracle_congr (st : VSState) (qo qo2 : QueryReq → List RawHit)
    (qt : Option String) (qe : Option (List ℚ)) (uid mt : Option String)
    (k : Int) (th : Option ℚ) (ua : Bool) (now : ℚ)
    (h : ∀ r, r.k = k → qo r = qo2 r) :
    st.search qo qt qe uid mt k th ua now =
      st.search qo2 qt qe uid mt k th ua now := by
  unfold VSState.search
  split
  · rfl
  · split
    · rw [h ⟨qe, none, uid, mt, k⟩ rfl]
    · split
      · rw [h ⟨none, qt, uid, mt, k⟩ rfl]
      · rfl

theorem processHits_length_no_threshold (ua : Bool) (now : ℚ)
    (hits : List RawHit) (st : VSState) :
    (processHits none ua now hits st).1.length = hits.length := by
  induction hits generalizing st with
  | nil => rfl
  | cons h rest ih =>
    cases ua <;> simp [processHits, threshSkip, ih]

/-- Concrete empty default-backed store for the C7 counterexample. -/
def wStDef : VSState :=
  { externalOnly := false, embedFunc := none, defaultEmbed := fun _ => [],
    entries := [] }

/-- Counterexample to C7 as stated: on an empty index, recall with k = 0
returns no entry at all, even though the embedding succeeds. -/
theorem recall_k_zero_can_return_empty_cex :
    (mmRecall wStDef (fun _ => []) (some (fun _ => [1])) "q" none 0 0).1 = [] :=
  rfl

/-- C7 amended: every backend query issued by recall carries the coerced
bound max 1 k (first conjunct: oracles that agree on such requests give the
same recall result), and with k = 0 the issued bound is 1, so at least one
entry is returned whenever the LLM embedding succeeds and the backend
returns at least one row for the issued request. -/
theorem recall_coerces_k_to_at_least_one (st : VSState)
    (qo qo2 : QueryReq → List RawHit) (llmE : Option (String → List ℚ))
    (q : String) (uid : Option String) (k : Int) (now : ℚ) :
    ((∀ r, r.k = max 1 k → qo r = qo2 r) →
      mmRecall st qo llmE q uid k now = mmRecall st qo2 llmE q uid k now) ∧
    (∀ f, llmE = some f → f q ≠ [] →
      qo ⟨some (f q), none, uid, none, max 1 k⟩ ≠ [] →
      (mmRecall st qo llmE q uid k now).1 ≠ []) := by
  constructor
  · intro h
    unfold mmRecall
    cases llmE with
    | none =>
      cases hxo : st.externalOnly <;>
        simp [hxo, search_oracle_congr st qo qo2 _ _ _ _ _ _ _ _ h]
    | some f =>
      by_cases he : (f q).isEmpty <;>
        cases hxo : st.externalOnly <;>
          simp [he, hxo, search_oracle_congr st qo qo2 _ _ _ _ _ _ _ _ h]
  · intro f hf hfq hqo
    subst hf
    have he : (f q).isEmpty = false := by
      cases hq : f q with
      | nil => exact absurd hq hfq
      | cons a l => simp [hq]
    have h1 : mmRecall st qo (some f) q uid k now =
        st.search qo none (some (f q)) uid none (max 1 k) none true now := by
      simp [mmRecall, he]
    have h2 : st.search qo none (some (f q)) uid none (max 1 k) none true now =
        processHits none true now
          (qo ⟨some (f q), none, uid, none, max 1 k⟩) st := by
      simp [VSState.search, strTruthy, embTruthy, he]
    rw [h1, h2]
    cases hq : qo ⟨some (f q), none, uid, none, max 1 k⟩ with
    | nil => exact absurd hq hqo
    | cons h rest =>
      have hlen := processHits_length_no_threshold true now (h :: rest) st
      intro hcon
      rw [hcon] at hlen
      simp at hlen

/-- Witness for the amended C7 at concrete inputs with k = 0. -/
theorem recall_coerces_k_witness :
    ((fun (_ : String) => [(1 : ℚ)]) "q" ≠ []) ∧
    (wQo ⟨some [(1 : ℚ)], none, none, none, max 1 0⟩ ≠ []) ∧
    (mmRecall wStDef wQo (some (fun (_ : String) => [(1 : ℚ)])) "q" none 0
      0).1 ≠ [] :=
  ⟨by simp, by simp [wQo], (recall_coerces_k_to_at_least_one wStDef wQo
    wQo (some (fun (_ : String) => [(1 : ℚ)])) "q" none 0 0).2
    (fun (_ : String) => [(1 : ℚ)]) rfl (by simp) (by simp [wQo])⟩

/-! ### Retention score (MemoryManager._calculate_retention_score) -/

/-- Python min on two floats, written with an explicit if so that the
kernel can evaluate it (provably equal to the lattice min). -/
def pymin (a b : ℚ) : ℚ := if a ≤ b then a else b

/-- Python max on two integers, written with an explicit if so that the
kernel can evaluate it (provably equal to the lattice max). -/
def pymax (a b : Int) : Int := if a ≤ b then b else a

theorem pymin_eq_min (a b : ℚ) : pymin a b = min a b := (min_def a b).symm

theorem pymax_eq_max (a b : Int) : pymax a b = max a b := (max_def a b).symm

/-- Translation of _calculate_retention_score.  The float power 0.5 ** x is
modelled by the explicit parameter hpow; everything else is translated
term by term from memory_manager.py. -/
def calculateRetentionScore (hpow : ℚ → ℚ) (mem : MemoryEntry) (now : ℚ) :
    ℚ :=
  let days_since_creation :=
    if mem.timestamp ≠ 0 then (now - mem.timestamp) / 86400 else 30
  let days_since_access :=
    if mem.last_accessed ≠ 0 then (now - mem.last_accessed) / 86400 else 30
  let importance_score := (mem.importance : ℚ) / 10
  let access_decay := hpow (days_since_access / 30)
  let creation_decay := hpow (days_since_creation / 90)
  let access_bonus := pymin ((mem.access_count : ℚ) * 0.05) 0.3
  let type_bonus : ℚ := if mem.memory_type = "reflection" then 0.2 else 0.0
  pymin (importance_score * 0.35 + access_decay * 0.25 + creation_decay * 0.1 +
    access_bonus + type_bonus) 1.0

/-- The retention-score formula exactly as the specification words it, with
the same power parameter; written independently for comparison with the
translation of the code. -/
def retentionScoreSpec (hpow : ℚ → ℚ) (mem : MemoryEntry) (now : ℚ) : ℚ :=
  let days_creation :=
    if mem.timestamp = 0 then 30 else (now - mem.timestamp) / 86400
  let days_access :=
    if mem.last_accessed = 0 then 30 else (now - mem.last_accessed) / 86400
  pymin 1.0 (0.35 * ((mem.importance : ℚ) / 10)
    + 0.25 * hpow (days_access / 30)
    + 0.10 * hpow (days_creation / 90)
    + pymin ((mem.access_count : ℚ) * 0.05) 0.3
    + (if mem.memory_type = "reflection" then 0.2 else 0.0))

/-! ### Claim C4 -/

/-- C4: for every memory entry, time and interpretation of the float power,
the retention score computed by the code equals the formula of the claim:
min of 1 and the weighted sum of importance, access decay, creation decay,
access bonus and reflection bonus, with the 30-day defaults substituted
when timestamp or last_accessed is zero. -/
theorem retention_score_matches_spec (hpow : ℚ → ℚ) (mem : MemoryEntry)
    (now : ℚ) :
    calculateRetentionScore hpow mem now = retentionScoreSpec hpow mem now := by
  unfold calculateRetentionScore retentionScoreSpec
  simp only [pymin_eq_min]
  rcases eq_or_ne mem.timestamp 0 with h1 | h1 <;>
    rcases eq_or_ne mem.last_accessed 0 with h2 | h2 <;>
      simp only [h1, h2, ne_eq, not_true_eq_false, not_false_eq_true,
        if_true, if_false, ite_true, ite_false] <;>
      · rw [min_comm]
        congr 1
        ring

/-! ### Forgetting scan (MemoryManager.run_forgetting_cycle) -/

/-- Environment of the forgetting scan: the interpretation of the float
power and the success of each backend delete. -/
structure ScanEnv where
  hpow : ℚ → ℚ
  deleteOk : String → Bool

/-- Body of the scan loop of run_forgetting_cycle for one scanned entry:
delete below 0.2, downgrade low-value facts below 0.4, keep the rest. -/
def scanStep (env : ScanEnv) (now : ℚ) (st : VSState) (mem : MemoryEntry) :
    VSState :=
  let score := calculateRetentionScore env.hpow mem now
  if score < 0.2 then (st.deleteMemory (env.deleteOk mem.id) mem.id).2
  else if score < 0.4 ∧ mem.memory_type = "fact" then
    (st.updateMemory mem.id none (some (pymax 1 (mem.importance - 1)))
      none none).2
  else st

/-- The scan phase of run_forgetting_cycle over the paginated snapshot of
all memories. -/
def forgettingScan (env : ScanEnv) (now : ℚ) (mems : List MemoryEntry)
    (st : VSState) : VSState :=
  mems.foldl (scanStep env now) st

/-! ### Claim C3 -/

theorem fact_ne_reflection : (("fact" : String) = "reflection") = False := by
  simp

/-- Concrete fact entry with importance 1 whose retention score lies in
the downgrade band, used against the strict-decrease part of C3. -/
def cexMem : MemoryEntry :=
  { id := "m1", user_id := "u", content := "c", memory_type := "fact",
    importance := 1, timestamp := 1, access_count := 0, last_accessed := 1 }

/-- Scan environment whose power interpretation is constantly 1, the true
value of 0.5 ** 0 for an entry accessed just now. -/
def cexEnv : ScanEnv := { hpow := fun _ => 1, deleteOk := fun _ => true }

/-- Concrete store holding the counterexample entry. -/
def cexSt : VSState :=
  { externalOnly := false, embedFunc := none, defaultEmbed := fun _ => [],
    entries := [("m1", ⟨"c", [1], [("importance", MetaVal.i 1)]⟩)] }

/-- Counterexample to C3 as stated: a surviving fact with score 0.385 in
the band and previous importance 1 keeps importance max(1, 0) = 1, which is
not strictly less than before. -/
theorem forgetting_downgrade_not_strict_cex :
    (0.2 : ℚ) ≤ calculateRetentionScore cexEnv.hpow cexMem 1 ∧
    calculateRetentionScore cexEnv.hpow cexMem 1 < 0.4 ∧
    cexMem.memory_type = "fact" ∧
    lookupA (forgettingScan cexEnv 1 [cexMem] cexSt).entries "m1" =
      some ⟨"c", [1], [("importance", MetaVal.i 1)]⟩ ∧
    ¬((1 : Int) < cexMem.importance) := by
  have hsc : calculateRetentionScore cexEnv.hpow cexMem 1 = 0.385 := by
    norm_num [calculateRetentionScore, cexEnv, cexMem, pymin,
      fact_ne_reflection]
  have h1 : ¬calculateRetentionScore cexEnv.hpow cexMem 1 < 0.2 := by
    rw [hsc]; norm_num
  have h2 : calculateRetentionScore cexEnv.hpow cexMem 1 < 0.4 := by
    rw [hsc]; norm_num
  refine ⟨by rw [hsc]; norm_num, h2, rfl, ?_, by decide⟩
  have hstep : forgettingScan cexEnv 1 [cexMem] cexSt =
      scanStep cexEnv 1 cexSt cexMem := rfl
  rw [hstep]
  simp only [scanStep]
  have hty : cexMem.memory_type = "fact" := rfl
  rw [if_neg h1, if_pos (And.intro h2 hty)]
  simp [cexSt, cexMem, VSState.updateMemory, VSState.lookup, lookupA, updMeta,
    setA, VSState.upsert, pymax]

/-- C3 amended: for every entry scanned with retention score s, if s is
below 0.2 the entry is deleted when the backend delete succeeds and left
unchanged (logged, not retried) when it fails; if 0.2 le s lt 0.4 and the
entry is a fact, it is kept with content and vector intact and its
importance replaced by pymax 1 (importance - 1), which is strictly smaller
than before whenever the previous importance was above 1; in every other
case the scan leaves the store unchanged. -/
theorem forgetting_scan_entry_actions (env : ScanEnv) (now : ℚ)
    (st : VSState) (mem : MemoryEntry)
    (hnd : (st.entries.map Prod.fst).Nodup) :
    (calculateRetentionScore env.hpow mem now < 0.2 →
      (env.deleteOk mem.id = true →
        (scanStep env now st mem).lookup mem.id = none) ∧
      (env.deleteOk mem.id = false → scanStep env now st mem = st)) ∧
    (0.2 ≤ calculateRetentionScore env.hpow mem now →
      calculateRetentionScore env.hpow mem now < 0.4 →
      mem.memory_type = "fact" →
      (∀ r, lookupA st.entries mem.id = some r →
        (scanStep env now st mem).lookup mem.id =
          some ⟨r.content, r.vector,
            setA r.meta "importance" (.i (pymax 1 (mem.importance - 1)))⟩) ∧
      (1 < mem.importance → pymax 1 (mem.importance - 1) < mem.importance)) ∧
    ((0.4 ≤ calculateRetentionScore env.hpow mem now ∨
      (0.2 ≤ calculateRetentionScore env.hpow mem now ∧
        mem.memory_type ≠ "fact")) → scanStep env now st mem = st) := by
  refine ⟨fun hs => ⟨fun hok => ?_, fun hko => ?_⟩,
    fun hs1 hs2 ht => ⟨fun r hr => ?_,
      fun h1 => by unfold pymax; split <;> omega⟩, fun hother => ?_⟩
  · simp only [scanStep, if_pos hs, VSState.deleteMemory, hok, if_true]
    exact lookupA_eraseA_self st.entries mem.id hnd
  · simp [scanStep, if_pos hs, VSState.deleteMemory, hko]
  · have hns : ¬calculateRetentionScore env.hpow mem now < 0.2 := not_lt.2 hs1
    simp only [scanStep, if_neg hns, if_pos (And.intro hs2 ht)]
    simp [VSState.updateMemory, VSState.lookup, hr, updMeta, VSState.upsert,
      lookupA_setA_self]
  · rcases hother with h4 | ⟨h2, ht⟩
    · have hns : ¬calculateRetentionScore env.hpow mem now < 0.2 := by
        intro h; exact absurd (lt_of_lt_of_le h (by norm_num)) (not_lt.2 h4)
      have hns4 : ¬(calculateRetentionScore env.hpow mem now < 0.4 ∧
          mem.memory_type = "fact") := by
        rintro ⟨h, _⟩; exact absurd h (not_lt.2 h4)
      simp [scanStep, hns, hns4]
    · have hns : ¬calculateRetentionScore env.hpow mem now < 0.2 := not_lt.2 h2
      have hns4 : ¬(calculateRetentionScore env.hpow mem now < 0.4 ∧
          mem.memory_type = "fact") := by rintro ⟨_, h⟩; exact ht h
      simp [scanStep, hns, hns4]

/-- Scan environment modelling a decayed entry: the power interpretation is
constantly 0, the limit value for very old timestamps. -/
def wEnvDel : ScanEnv := { hpow := fun _ => 0, deleteOk := fun _ => true }

/-- Witness for the amended C3: 400 days after creation and last access,
a fact of importance 1 with both decays at their old-age limit 0 scores
0.035 and is deleted by the scan. -/
theorem forgetting_scan_entry_actions_witness :
    ((cexSt.entries.map Prod.fst).Nodup) ∧
    calculateRetentionScore wEnvDel.hpow cexMem 34560001 < 0.2 ∧
    wEnvDel.deleteOk "m1" = true ∧
    (scanStep wEnvDel 34560001 cexSt cexMem).lookup "m1" = none :=
  ⟨by simp [cexSt], by norm_num [calculateRetentionScore, wEnvDel, cexMem,
      pymin, fact_ne_reflection], rfl,
    ((forgetting_scan_entry_actions wEnvDel 34560001 cexSt cexMem
      (by simp [cexSt])).1
      (by norm_num [calculateRetentionScore, wEnvDel, cexMem, pymin,
        fact_ne_reflection])).1 rfl⟩

/-! ### Short-term session memory (memory_manager.py) -/

/-- One session document of chat_memory.json: title, description and the
chunk list.  Chunks are opaque to these operations. -/
structure SessionRec (α : Type) where
  title : String
  description : String
  memory : List α
  deriving DecidableEq, Repr

/-- The in-memory chat_memory map (and its on-disk JSON mirror). -/
abbrev ChatMem (α : Type) := List (String × SessionRec α)

/-- MemoryManager.update_memory on the session map: append the chunk and
drop the first chunk when the length exceeds max_memory_length.  none
models the KeyError raised when the session key is missing. -/
def updateSessionMemory {α : Type} (maxLen : Int) (cm : ChatMem α)
    (s : String) (chunk : α) : Option (ChatMem α) :=
  match lookupA cm s with
  | none => none
  | some r =>
    let m1 := r.memory ++ [chunk]
    let m2 := if (m1.length : Int) > maxLen then m1.tail else m1
    some (setA cm s ⟨r.title, r.description, m2⟩)

/-- MemoryManager.write_memory: store the given chunk list as is (no
trimming).  none models the KeyError when the session key is missing. -/
def writeSessionMemory {α : Type} (cm : ChatMem α) (s : String)
    (memory : List α) : Option (ChatMem α) :=
  match lookupA cm s with
  | none => none
  | some r => some (setA cm s ⟨r.title, r.description, memory⟩)

/-- Python dict.pop without a default: the removed value and the shrunken
map, or none for a KeyError. -/
def dictPop {α : Type} (cm : ChatMem α) (s : String) :
    Option (SessionRec α × ChatMem α) :=
  match lookupA cm s with
  | none => none
  | some r => some (r, eraseA cm s)

/-- MemoryManager.delete_session acting on the in-memory map and the
on-disk document: pop the session, then save the map.  The boolean is false
when the pop raises KeyError, in which case the save is never reached. -/
def deleteSession {α : Type} (cm disk : ChatMem α) (s : String) :
    Bool × ChatMem α × ChatMem α :=
  match dictPop cm s with
  | none => (false, cm, disk)
  | some (_, cm2) => (true, cm2, cm2)

/-! ### Claim C8 -/

/-- Counterexample to C8 as stated: with max_memory_length 1, write_memory
stores a three-chunk list untrimmed, so the bound does not hold after every
operation; a subsequent update_memory on that session evicts only one chunk
and still ends with three chunks, above the bound. -/
theorem session_bound_not_invariant_cex :
    writeSessionMemory [("s", ⟨"", "", ([] : List Nat)⟩)] "s" [1, 2, 3] =
      some [("s", ⟨"", "", [1, 2, 3]⟩)] ∧
    ¬(([1, 2, 3] : List Nat).length ≤ 1) ∧
    updateSessionMemory 1 [("s", ⟨"", "", ([1, 2, 3] : List Nat)⟩)] "s" 4 =
      some [("s", ⟨"", "", [2, 3, 4]⟩)] ∧
    ¬(([2, 3, 4] : List Nat).length ≤ 1) := by
  refine ⟨rfl, by decide, ?_, by decide⟩
  decide

/-- C8 amended: with max_memory_length at least 1, update_memory on an
existing session appends the new chunk as last element, touches no other
session, evicts exactly the oldest (first) chunk when the bound would be
exceeded, and preserves the bound: a session whose chunk count was within
max_memory_length stays within it.  The bound is preserved, not established:
write_memory stores over-long lists untrimmed. -/
theorem session_update_memory_preserves_bound {α : Type} (maxLen : Int)
    (cm : ChatMem α) (s : String) (chunk : α) (r : SessionRec α)
    (hpos : 1 ≤ maxLen) (hr : lookupA cm s = some r) :
    ∃ r2 : SessionRec α,
      updateSessionMemory maxLen cm s chunk = some (setA cm s r2) ∧
      lookupA (setA cm s r2) s = some r2 ∧
      (∀ s2, s ≠ s2 → lookupA (setA cm s r2) s2 = lookupA cm s2) ∧
      r2.memory.getLast? = some chunk ∧
      ((r.memory.length + 1 : Int) ≤ maxLen →
        r2.memory = r.memory ++ [chunk]) ∧
      (maxLen < (r.memory.length + 1 : Int) →
        r2.memory = r.memory.tail ++ [chunk]) ∧
      ((r.memory.length : Int) ≤ maxLen →
        (r2.memory.length : Int) ≤ maxLen) := by
  by_cases hb : ((r.memory ++ [chunk]).length : Int) > maxLen
  · refine ⟨⟨r.title, r.description, (r.memory ++ [chunk]).tail⟩, ?_, ?_, ?_,
      ?_, ?_, ?_, ?_⟩
    · simp only [updateSessionMemory, hr, if_pos hb]
    · exact lookupA_setA_self cm s _
    · exact fun s2 hne => lookupA_setA_ne cm s s2 _ hne
    · cases hm : r.memory with
      | nil =>
        exfalso
        rw [hm] at hb
        simp at hb
        omega
      | cons x xs => simp [hm, List.getLast?_concat]
    · intro hle
      exfalso
      rw [List.length_append] at hb
      simp at hb
      omega
    · intro _
      cases hm : r.memory with
      | nil =>
        exfalso
        rw [hm] at hb
        simp at hb
        omega
      | cons x xs => simp [hm]
    · intro hle
      cases hm : r.memory with
      | nil => simp; omega
      | cons x xs =>
        rw [hm] at hle
        simp at hle ⊢
        omega
  · refine ⟨⟨r.title, r.description, r.memory ++ [chunk]⟩, ?_, ?_, ?_,
      ?_, ?_, ?_, ?_⟩
    · simp only [updateSessionMemory, hr, if_neg hb]
    · exact lookupA_setA_self cm s _
    · exact fun s2 hne => lookupA_setA_ne cm s s2 _ hne
    · simp [List.getLast?_concat]
    · intro _; rfl
    · intro hgt
      exfalso
      rw [List.length_append] at hb
      simp at hb
      omega
    · intro _
      rw [List.length_append] at hb
      simp at hb ⊢
      omega

/-- Concrete one-chunk session map at the bound, for the C8 witness. -/
def wCm8 : ChatMem Nat := [("s", ⟨"", "", [7]⟩)]

/-- Witness for the amended C8: appending to a full one-chunk session with
bound 1 evicts the old chunk and keeps the new one as the single last
element. -/
theorem session_update_memory_preserves_bound_witness :
    (1 : Int) ≤ 1 ∧
    lookupA wCm8 "s" = some ⟨"", "", [7]⟩ ∧
    ∃ r2 : SessionRec Nat,
      updateSessionMemory 1 wCm8 "s" 9 = some (setA wCm8 "s" r2) ∧
      lookupA (setA wCm8 "s" r2) "s" = some r2 ∧
      (∀ s2, "s" ≠ s2 →
        lookupA (setA wCm8 "s" r2) s2 = lookupA wCm8 s2) ∧
      r2.memory.getLast? = some 9 ∧
      ((([7] : List Nat).length + 1 : Int) ≤ 1 →
        r2.memory = [7] ++ [9]) ∧
      ((1 : Int) < (([7] : List Nat).length + 1 : Int) →
        r2.memory = ([7] : List Nat).tail ++ [9]) ∧
      ((([7] : List Nat).length : Int) ≤ 1 →
        (r2.memory.length : Int) ≤ 1) :=
  ⟨le_refl 1, rfl, session_update_memory_preserves_bound 1 wCm8 "s" 9
    ⟨"", "", [7]⟩ (le_refl 1) rfl⟩

/-! ### Claim C10 -/

/-- C10: delete_session on a missing key raises KeyError (false flag) and
leaves both the in-memory map and the on-disk document unchanged; on a
present key it removes exactly that session and persists the remaining map
to disk. -/
theorem delete_session_missing_raises_and_preserves {α : Type}
    (cm disk : ChatMem α) (s : String) (hnd : (cm.map Prod.fst).Nodup) :
    (lookupA cm s = none → deleteSession cm disk s = (false, cm, disk)) ∧
    (∀ r, lookupA cm s = some r →
      deleteSession cm disk s = (true, eraseA cm s, eraseA cm s) ∧
      lookupA (eraseA cm s) s = none ∧
      (∀ s2, s ≠ s2 → lookupA (eraseA cm s) s2 = lookupA cm s2)) := by
  constructor
  · intro h
    simp [deleteSession, dictPop, h]
  · intro r h
    refine ⟨by simp [deleteSession, dictPop, h], ?_, ?_⟩
    · exact lookupA_eraseA_self cm s hnd
    · exact fun s2 hne => lookupA_eraseA_ne cm s s2 hne

/-- Concrete one-session map for the C10 witness. -/
def wCm10 : ChatMem Nat := [("a", ⟨"", "", []⟩)]

/-- Witness for C10: deleting a missing session from a one-session map
raises and changes nothing. -/
theorem delete_session_missing_witness :
    ((wCm10.map Prod.fst).Nodup) ∧
    lookupA wCm10 "b" = none ∧
    deleteSession wCm10 wCm10 "b" = (false, wCm10, wCm10) :=
  ⟨by decide, rfl, (delete_session_missing_raises_and_preserves
    wCm10 wCm10 "b" (by decide)).1 rfl⟩

/-! ### Core-memory remove tool (src/data/tools/memory.py) -/

/-- State touched by the memory_remove tool: the core.txt lines as read by
readlines (keeping their trailing newline), the persistent line-index to
vector-id map of core_vector_map.json, and the vector store. -/
structure ToolState where
  lines : List String
  vmap : List (Int × String)
  vs : VSState

/-- Environment of the tool: availability of the injected memory manager
and the success of each backend delete. -/
structure RemEnv where
  managerAvailable : Bool
  deleteOk : String → Bool

/-- Python str.strip() on ASCII whitespace, written on the character list
so that the kernel can evaluate it. -/
def pyStrip (s : String) : String :=
  ⟨((s.data.dropWhile Char.isWhitespace).reverse.dropWhile
    Char.isWhitespace).reverse⟩

/-- The content-match fallback of the tool: the first stored entry whose
stripped content equals the removed text and whose type is fact. -/
def fallbackMatch (entries : List (String × StoredRec)) (txt : String) :
    Option String :=
  match entries with
  | [] => none
  | (id, r) :: rest =>
    if pyStrip r.content = txt ∧ metaStr r.meta "memory_type" "fact" = "fact"
    then some id
    else fallbackMatch rest txt

/-- The always-run map rewrite of the tool: keys below the removed index
keep their value, keys above it slide down by one, the removed index is
dropped. -/
def shiftVmap (vmap : List (Int × String)) (index : Int) :
    List (Int × String) :=
  vmap.filterMap (fun kv =>
    if kv.1 < index then some kv
    else if kv.1 > index then some (kv.1 - 1, kv.2)
    else none)

/-- MemoryRemoveTool.execute for an integer index: none models the early
Index-out-of-range return (nothing is modified).  In range, the line is
removed, the mapped (or content-matched) vector entry is deleted when the
stripped line is non-blank and the manager is available, and the map is
rewritten. -/
def memoryRemove (env : RemEnv) (ts : ToolState) (index : Int) :
    Option ToolState :=
  if index < 0 ∨ (ts.lines.length : Int) ≤ index then none
  else
    let removed := ts.lines.getD index.toNat ""
    let lines2 := ts.lines.eraseIdx index.toNat
    let removedText := pyStrip removed
    let vs2 :=
      if removedText ≠ "" ∧ env.managerAvailable then
        let viaMap : Option String :=
          if ts.vmap ≠ [] then
            match lookupA ts.vmap index with
            | some vid => if (ts.vs.lookup vid).isSome then some vid else none
            | none => none
          else none
        let vectorId : Option String :=
          match viaMap with
          | some vid => some vid
          | none => fallbackMatch ts.vs.entries removedText
        match vectorId with
        | some vid => (ts.vs.deleteMemory (env.deleteOk vid) vid).2
        | none => ts.vs
      else ts.vs
    some ⟨lines2, shiftVmap ts.vmap index, vs2⟩

theorem lookupA_shiftVmap_lt (vmap : List (Int × String)) (index k : Int)
    (hk : k < index) :
    lookupA (shiftVmap vmap index) k = lookupA vmap k := by
  induction vmap with
  | nil => rfl
  | cons hd tl ih =>
    obtain ⟨k0, v0⟩ := hd
    by_cases h0 : k0 < index
    · by_cases he : k0 = k
      · subst he; simp [shiftVmap, h0, lookupA]
      · simp only [shiftVmap, List.filterMap_cons] at ih ⊢
        simp [h0, lookupA, he, ih]
    · by_cases h1 : k0 > index
      · have hne : ¬(k0 - 1 = k) := by omega
        have hne0 : ¬(k0 = k) := by omega
        simp only [shiftVmap, List.filterMap_cons] at ih ⊢
        simp [h0, h1, lookupA, hne, hne0, ih]
      · have he : k0 = index := by omega
        have hne0 : ¬(k0 = k) := by omega
        simp only [shiftVmap, List.filterMap_cons] at ih ⊢
        simp [h0, h1, lookupA, hne0, ih]

theorem lookupA_shiftVmap_ge (vmap : List (Int × String)) (index k : Int)
    (hk : index ≤ k) :
    lookupA (shiftVmap vmap index) k = lookupA vmap (k + 1) := by
  induction vmap with
  | nil => rfl
  | cons hd tl ih =>
    obtain ⟨k0, v0⟩ := hd
    by_cases h0 : k0 < index
    · have hne : ¬(k0 = k) := by omega
      have hne1 : ¬(k0 = k + 1) := by omega
      simp only [shiftVmap, List.filterMap_cons] at ih ⊢
      simp [h0, lookupA, hne, hne1, ih]
    · by_cases h1 : k0 > index
      · simp only [shiftVmap, List.filterMap_cons] at ih ⊢
        by_cases he : k0 = k + 1
        · subst he; simp [h0, h1, lookupA, ih]
        · have hne : ¬(k0 - 1 = k) := by omega
          simp [h0, h1, lookupA, hne, he, ih]
      · have he : k0 = index := by omega
        have hne1 : ¬(k0 = k + 1) := by omega
        simp only [shiftVmap, List.filterMap_cons] at ih ⊢
        simp [h0, h1, lookupA, hne1, ih]

/-! ### Claim C9 -/

/-- Concrete store with three fact entries VA, VB, VC for C9. -/
def cexVs : VSState :=
  { externalOnly := true, embedFunc := none, defaultEmbed := fun _ => [],
    entries :=
      [("VA", ⟨"a", [1], [("memory_type", .s "fact")]⟩),
       ("VB", ⟨"b", [2], [("memory_type", .s "fact")]⟩),
       ("VC", ⟨"c", [3], [("memory_type", .s "fact")]⟩)] }

/-- Tool state whose line 1 is blank (whitespace only) but still mapped to
vector id VB. -/
def cexToolSt : ToolState :=
  { lines := ["a\n", " \n", "c\n"],
    vmap := [(0, "VA"), (1, "VB"), (2, "VC")],
    vs := cexVs }

def cexRemEnv : RemEnv :=
  { managerAvailable := true, deleteOk := fun _ => true }

/-- Counterexample to C9 as stated: removing in-range index 1 whose line is
blank shifts the map (key 1 dropped, key 2 rebound to 1) but never deletes
the vector entry VB that was mapped to line 1 - the stripped text is empty,
so the vector sync is skipped entirely. -/
theorem memory_remove_blank_line_keeps_vector_cex :
    (memoryRemove cexRemEnv cexToolSt 1).map ToolState.lines =
      some ["a\n", "c\n"] ∧
    (memoryRemove cexRemEnv cexToolSt 1).map ToolState.vmap =
      some [(0, "VA"), (1, "VC")] ∧
    (memoryRemove cexRemEnv cexToolSt 1).map
      (fun ts2 => ts2.vs.lookup "VB") =
      some (some ⟨"b", [2], [("memory_type", .s "fact")]⟩) := by
  refine ⟨rfl, rfl, rfl⟩

/-- C9 amended: for every in-range index i, memory_remove(i) removes line i
from core.txt and rewrites the map so that lookups below i are unchanged
and lookups at or above i return what was mapped one index higher (key i is
dropped, keys above slide down); and the vector entry whose id the map
assigned to line i is deleted from the store provided the removed line is
non-blank after stripping, the manager is available, the mapped id is still
present in the store and the backend delete succeeds. -/
theorem memory_remove_shifts_map_and_deletes (env : RemEnv) (ts : ToolState)
    (index : Int) (h0 : 0 ≤ index) (h1 : index < (ts.lines.length : Int))
    (hnd : (ts.vs.entries.map Prod.fst).Nodup) :
    ∃ ts2, memoryRemove env ts index = some ts2 ∧
      ts2.lines = ts.lines.eraseIdx index.toNat ∧
      (∀ k, k < index → lookupA ts2.vmap k = lookupA ts.vmap k) ∧
      (∀ k, index ≤ k → lookupA ts2.vmap k = lookupA ts.vmap (k + 1)) ∧
      (∀ vid r, pyStrip (ts.lines.getD index.toNat "") ≠ "" →
        env.managerAvailable = true →
        lookupA ts.vmap index = some vid →
        ts.vs.lookup vid = some r →
        env.deleteOk vid = true →
        ts2.vs.lookup vid = none) := by
  have hg : ¬(index < 0 ∨ (ts.lines.length : Int) ≤ index) := by omega
  refine ⟨_, by rw [memoryRemove, if_neg hg], rfl,
    fun k hk => lookupA_shiftVmap_lt ts.vmap index k hk,
    fun k hk => lookupA_shiftVmap_ge ts.vmap index k hk,
    fun vid r htxt hmgr hmap hvs hdel => ?_⟩
  have hvm : ts.vmap ≠ [] := by
    intro he; rw [he] at hmap; exact nomatch hmap
  simp only [htxt, hmgr, hvm, hmap, hvs, ne_eq, not_false_eq_true,
    and_self, if_true, if_pos, Option.isSome_some, ite_true,
    not_true_eq_false, ite_not]
  simp only [VSState.deleteMemory, hdel, if_true]
  exact lookupA_eraseA_self ts.vs.entries vid hnd

/-- Tool state whose line 1 is the non-blank line mapped to VB, for the C9
witness matching the scenario of the spec example. -/
def wToolSt : ToolState :=
  { lines := ["a\n", "b\n", "c\n"],
    vmap := [(0, "VA"), (1, "VB"), (2, "VC")],
    vs := cexVs }

/-- Witness for the amended C9: removing line 1 (content b) shifts the map
and deletes VB from the store. -/
theorem memory_remove_shifts_map_and_deletes_witness :
    (0 : Int) ≤ 1 ∧ (1 : Int) < (wToolSt.lines.length : Int) ∧
    ((wToolSt.vs.entries.map Prod.fst).Nodup) ∧
    ∃ ts2, memoryRemove cexRemEnv wToolSt 1 = some ts2 ∧
      ts2.lines = wToolSt.lines.eraseIdx (1 : Int).toNat ∧
      (∀ k, k < 1 → lookupA ts2.vmap k = lookupA wToolSt.vmap k) ∧
      (∀ k, (1 : Int) ≤ k →
        lookupA ts2.vmap k = lookupA wToolSt.vmap (k + 1)) ∧
      (∀ vid r, pyStrip (wToolSt.lines.getD (1 : Int).toNat "") ≠ "" →
        cexRemEnv.managerAvailable = true →
        lookupA wToolSt.vmap 1 = some vid →
        wToolSt.vs.lookup vid = some r →
        cexRemEnv.deleteOk vid = true →
        ts2.vs.lookup vid = none) :=
  ⟨by decide, by decide, by decide,
    memory_remove_shifts_map_and_deletes cexRemEnv wToolSt 1 (by decide)
      (by decide) (by decide)⟩

/-! ### Fact extraction cleaning (MemoryManager._extract_facts) and the
importance sanitization of the memory_add tool -/

/-- Parsed JSON-like Python values as produced by json.loads or
ast.literal_eval. -/
inductive PyVal where
  | pynone
  | pystr (s : String)
  | pynum (q : ℚ)
  | pybool (b : Bool)
  | pylist (xs : List PyVal)
  | pydict (xs : List (String × PyVal))

/-- Python int() truncation toward zero of a float value. -/
def pyTrunc (q : ℚ) : Int := if q < 0 then -Int.floor (-q) else Int.floor q

def digitsToNat (cs : List Char) : Nat :=
  cs.foldl (fun a c => a * 10 + (c.toNat - 48)) 0

def allDigits (cs : List Char) : Bool := cs.all Char.isDigit

/-- Python float(s), modelled for plain decimal literals: optional sign,
digits, optional single dot with digit fraction.  The exotic float() forms
(exponents, inf, nan, surrounding whitespace, underscores) are not
modelled; no theorem below depends on them. -/
def pyFloatOfString (s : String) : Option ℚ :=
  let cs := s.data
  let core : List Char :=
    match cs with
    | c :: rest => if c = '-' ∨ c = '+' then rest else cs
    | [] => []
  let neg : Bool := match cs with | c :: _ => c = '-' | [] => false
  let ip := core.takeWhile Char.isDigit
  let rest := core.dropWhile Char.isDigit
  let val : Option ℚ :=
    match rest with
    | [] => if ip = [] then none else some (digitsToNat ip : ℚ)
    | '.' :: fr =>
      if allDigits fr ∧ (ip ≠ [] ∨ fr ≠ []) then
        some ((digitsToNat ip : ℚ) + (digitsToNat fr : ℚ) / (10 : ℚ) ^ fr.length)
      else none
    | _ => none
  val.map (fun v => if neg then -v else v)

/-- Python int(float(raw)): numbers truncate toward zero, booleans coerce
through 1.0 or 0.0, strings go through float(), lists and dicts raise
TypeError (none). -/
def intFloat : PyVal → Option Int
  | .pynum q => some (pyTrunc q)
  | .pybool b => some (if b then 1 else 0)
  | .pystr s => (pyFloatOfString s).map pyTrunc
  | _ => none

/-- The importance normalization of _extract_facts: default 5 when the key
is absent, None or the empty string, int(float(raw)) otherwise, falling
back to 5 when that raises.  No clamping happens here. -/
def coerceImportance (raw : Option PyVal) : Int :=
  match raw with
  | none => 5
  | some .pynone => 5
  | some (.pystr "") => 5
  | some v => (intFloat v).getD 5

/-- The cleaning loop of _extract_facts over the parsed JSON array: keep
only dicts that have a content key, overwriting their importance with the
normalized integer. -/
def cleanFacts : List PyVal → List (List (String × PyVal))
  | [] => []
  | .pydict d :: rest =>
    if (lookupA d "content").isSome then
      setA d "importance"
        (.pynum (coerceImportance (lookupA d "importance"))) :: cleanFacts rest
    else cleanFacts rest
  | _ :: rest => cleanFacts rest

/-- Python min on two integers, written with an explicit if. -/
def pyminI (a b : Int) : Int := if a ≤ b then a else b

/-- Python int(s) on a string: optional sign plus digits only (int of a
plain integer literal; int() of a non-integer string raises). -/
def parseIntString (s : String) : Option Int :=
  match s.data with
  | [] => none
  | '-' :: rest =>
    if rest ≠ [] ∧ allDigits rest then some (-(digitsToNat rest : Int))
    else none
  | '+' :: rest =>
    if rest ≠ [] ∧ allDigits rest then some (digitsToNat rest : Int)
    else none
  | cs => if allDigits cs then some ((digitsToNat cs : Int)) else none

/-- Python int(raw) as used by the memory_add tool. -/
def pyIntOf : PyVal → Option Int
  | .pynum q => some (pyTrunc q)
  | .pybool b => some (if b then 1 else 0)
  | .pystr s => parseIntString s
  | _ => none

/-- The importance sanitization of MemoryAddTool.execute: coerce to int
(default 5 on TypeError or ValueError) and clamp with min(max(x, 1), 10). -/
def toolSanitizeImportance (raw : PyVal) : Int :=
  pyminI (pymax ((pyIntOf raw).getD 5) 1) 10

theorem not_mem_of_lookupA_none {κ ν : Type} [DecidableEq κ]
    (l : List (κ × ν)) (k : κ) (h : lookupA l k = none) :
    k ∉ l.map Prod.fst := by
  induction l with
  | nil => simp
  | cons hd tl ih =>
    obtain ⟨k0, v0⟩ := hd
    by_cases he : k0 = k
    · subst he; simp [lookupA] at h
    · simp only [lookupA, if_neg he] at h
      have hne : ¬k = k0 := fun hk => he hk.symm
      simp [hne, ih h]

theorem lookupA_mergeMeta_not_mem (base upd : Meta) (k : String)
    (h : k ∉ upd.map Prod.fst) :
    lookupA (mergeMeta base upd) k = lookupA base k := by
  induction upd generalizing base with
  | nil => rfl
  | cons hd tl ih =>
    obtain ⟨k0, v0⟩ := hd
    simp only [List.map_cons, List.mem_cons, not_or] at h
    simp only [mergeMeta]
    rw [ih (setA base k0 v0) h.2]
    exact lookupA_setA_ne base k0 k v0 (fun he => h.1 he.symm)

/-! ### Claim C5 -/

/-- Entry as built by _deduplicate_and_store for an extracted fact whose
importance survived as 99. -/
def e99 : MemoryEntry :=
  { id := "f1", user_id := "u", content := "x", memory_type := "fact",
    importance := 99, timestamp := 1 }

/-- Counterexample to C5 as stated: the extraction cleaning keeps an
importance of 99 untouched (no clamping to the range 1 to 10), and the
vector store writes it as is in the entry metadata. -/
theorem importance_not_clamped_cex :
    cleanFacts [.pydict [("content", .pystr "x"), ("importance", .pynum 99)]]
      = [[("content", .pystr "x"), ("importance", .pynum 99)]] ∧
    ((wStDef.addMemory e99 (some [1]) 1).map
      (fun st2 => (st2.lookup "f1").map
        (fun r => lookupA r.meta "importance"))) =
      some (some (some (.i 99))) ∧
    ¬((99 : Int) ≤ 10) := by
  refine ⟨?_, rfl, by decide⟩
  show setA [("content", PyVal.pystr "x"), ("importance", PyVal.pynum 99)]
      "importance" (.pynum (coerceImportance (some (.pynum 99))))
      :: cleanFacts [] = _
  have h99 : coerceImportance (some (.pynum 99)) = 99 := by
    have : pyTrunc 99 = 99 := by
      rw [pyTrunc, if_neg (by norm_num)]
      norm_num
    simp [coerceImportance, intFloat, this]
  rw [h99]
  rfl

/-- C5 amended: in hippocampus fact extraction, importance is coerced to an
integer: an absent key, None, the empty string, or a malformed value (list,
dict) defaults to 5, every cleaned fact carries an integer importance, and
the vector store's add_memory stores the entry importance unchanged (no
clamping in either place); clamping to the range 1 to 10 happens only in
the memory_add tool, whose sanitized importance always lies in that range. -/
theorem importance_coercion_and_tool_clamp :
    (coerceImportance none = 5 ∧ coerceImportance (some .pynone) = 5 ∧
      coerceImportance (some (.pystr "")) = 5 ∧
      (∀ xs, coerceImportance (some (.pylist xs)) = 5) ∧
      (∀ xs, coerceImportance (some (.pydict xs)) = 5)) ∧
    (∀ facts d, d ∈ cleanFacts facts →
      ∃ n : Int, lookupA d "importance" = some (.pynum (n : ℚ))) ∧
    (∀ (st : VSState) (e : MemoryEntry) (emb : Option (List ℚ)) (now : ℚ)
      (st2 : VSState), lookupA e.metadata "importance" = none →
      st.addMemory e emb now = some st2 →
      ∃ r, st2.lookup e.id = some r ∧
        lookupA r.meta "importance" = some (.i e.importance)) ∧
    (∀ v, 1 ≤ toolSanitizeImportance v ∧ toolSanitizeImportance v ≤ 10) := by
  refine ⟨⟨rfl, rfl, rfl, fun _ => rfl, fun _ => rfl⟩, ?_, ?_, ?_⟩
  · intro facts
    induction facts with
    | nil => intro d hd; exact absurd hd (List.not_mem_nil d)
    | cons hd tl ih =>
      intro d hmem
      match hd with
      | .pynone | .pystr _ | .pynum _ | .pybool _ | .pylist _ =>
        exact ih d hmem
      | .pydict dd =>
        by_cases hc : (lookupA dd "content").isSome
        · simp only [cleanFacts, if_pos hc, List.mem_cons] at hmem
          rcases hmem with he | hmem
          · subst he
            exact ⟨coerceImportance (lookupA dd "importance"),
              lookupA_setA_self dd "importance" _⟩
          · exact ih d hmem
        · simp only [cleanFacts, if_neg hc] at hmem
          exact ih d hmem
  · intro st e emb now st2 hnk hadd
    have hbase : lookupA (mergeMeta (baseMeta e now) e.metadata) "importance"
        = some (.i e.importance) := by
      rw [lookupA_mergeMeta_not_mem _ _ _
        (not_mem_of_lookupA_none e.metadata "importance" hnk)]
      rfl
    match hemb : emb with
    | some v =>
      by_cases hv : v = []
      · subst hv; simp [VSState.addMemory] at hadd
      · simp only [VSState.addMemory, if_neg hv] at hadd
        refine ⟨⟨e.content, v, mergeMeta (baseMeta e now) e.metadata⟩,
          ?_, hbase⟩
        obtain rfl := Option.some.inj hadd
        simp [VSState.lookup, VSState.upsert, lookupA_setA_self]
    | none =>
      match hef : st.embedFunc with
      | some f =>
        by_cases hg : f e.content = []
        · simp [VSState.addMemory, hef, hg] at hadd
        · simp only [VSState.addMemory, hef, if_neg hg] at hadd
          refine ⟨⟨e.content, f e.content,
            mergeMeta (baseMeta e now) e.metadata⟩, ?_, hbase⟩
          obtain rfl := Option.some.inj hadd
          simp [VSState.lookup, VSState.upsert, lookupA_setA_self]
      | none =>
        match hxo : st.externalOnly with
        | true => simp [VSState.addMemory, hef, hxo] at hadd
        | false =>
          simp only [VSState.addMemory, hef, hxo, if_false,
            Bool.false_eq_true, Option.some.injEq] at hadd
          refine ⟨⟨e.content, st.defaultEmbed e.content,
            mergeMeta (baseMeta e now) e.metadata⟩, ?_, hbase⟩
          obtain rfl := hadd
          simp [VSState.lookup, VSState.upsert, lookupA_setA_self]
  · intro v
    unfold toolSanitizeImportance pyminI pymax
    split <;> split <;> omega

/-- Witness for the amended C5: a concrete add_memory call stores the given
importance 99 unchanged. -/
theorem importance_coercion_and_tool_clamp_witness :
    lookupA e99.metadata "importance" = none ∧
    (∃ st2, wStDef.addMemory e99 (some [1]) 1 = some st2) ∧
    (∀ st2, wStDef.addMemory e99 (some [1]) 1 = some st2 →
      ∃ r, st2.lookup "f1" = some r ∧
        lookupA r.meta "importance" = some (.i 99)) :=
  ⟨rfl, ⟨_, rfl⟩, fun st2 h =>
    importance_coercion_and_tool_clamp.2.2.1 wStDef e99 (some [1]) 1 st2
      rfl h⟩

/-! ### Summarization stage (MemoryManager._summarize_old_memories) -/

/-- Environment of the summarization stage: the LLM summarizer keyed by the
facts text of a group (none models a chat failure or a falsy response; the
list holds the parsed non-empty stripped lines), the LLM embedding of one
summary line (empty models failure or a falsy result), the id generator
indexed by how many ids this stage has drawn so far, and the success of
each backend delete. -/
structure SummEnv where
  summarize : String → Option (List String)
  embedOracle : String → List ℚ
  idOf : Nat → String
  deleteOk : String → Bool

/-- The grouping condition of _summarize_old_memories: a fact entry whose
age (now - timestamp) / 86400, taken as 0 for a zero timestamp, exceeds 30
days. -/
def isOldFact (now : ℚ) (m : MemoryEntry) : Bool :=
  m.memory_type == "fact" &&
    decide ((if m.timestamp ≠ 0 then (now - m.timestamp) / 86400 else 0) > 30)

def oldFactsOf (now : ℚ) (mems : List MemoryEntry) : List MemoryEntry :=
  mems.filter (isOldFact now)

/-- The per-user group: old facts of the given user, in scan order. -/
def groupOf (now : ℚ) (mems : List MemoryEntry) (u : String) :
    List MemoryEntry :=
  (oldFactsOf now mems).filter (fun m => m.user_id == u)

def firstDedupGo : List String → List String → List String
  | [], _ => []
  | x :: rest, seen =>
    if x ∈ seen then firstDedupGo rest seen
    else x :: firstDedupGo rest (x :: seen)

/-- Deduplication keeping first occurrences, the iteration order of a
Python dict built by insertion. -/
def firstDedup (l : List String) : List String := firstDedupGo l []

/-- The users of the grouping dict, in insertion order. -/
def groupUsers (now : ℚ) (mems : List MemoryEntry) : List String :=
  firstDedup ((oldFactsOf now mems).map (fun m => m.user_id))

/-- The summary entry built for one summary line. -/
def mkSummary (idv uid s : String) (now : ℚ) : MemoryEntry :=
  { id := idv, user_id := uid, content := s, memory_type := "summary",
    importance := 6, timestamp := now }

/-- The prompt payload built from a group. -/
def factsText (facts : List MemoryEntry) : String :=
  String.intercalate "\n" (facts.map (fun f => "- " ++ f.content))

/-- The summary storing loop: for each parsed line, draw an id, embed, and
try add_memory; a raised add is logged and not counted.  Returns the number
of summaries added, the next id counter and the new store. -/
def addSummaries (env : SummEnv) (uid : String) (now : ℚ) :
    List String → Nat → VSState → Nat × Nat × VSState
  | [], n, st => (0, n, st)
  | s :: rest, n, st =>
    let e := env.embedOracle s
    let emb : Option (List ℚ) := if e = [] then none else some e
    match st.addMemory (mkSummary (env.idOf n) uid s now) emb now with
    | some st2 =>
      let p := addSummaries env uid now rest (n + 1) st2
      (p.1 + 1, p.2.1, p.2.2)
    | none =>
      let p := addSummaries env uid now rest (n + 1) st
      (p.1, p.2.1, p.2.2)

/-- The deletion loop over the old facts of a group; failed deletes keep
the fact. -/
def deleteOldFacts (env : SummEnv) (facts : List MemoryEntry)
    (st : VSState) : VSState :=
  facts.foldl (fun s f => (s.deleteMemory (env.deleteOk f.id) f.id).2) st

/-- One iteration of the per-user loop: skip groups below five facts, ask
the summarizer, store the summaries, and delete the old facts only when at
least one summary was stored. -/
def processGroup (env : SummEnv) (now : ℚ) (u : String)
    (facts : List MemoryEntry) (n : Nat) (st : VSState) : Nat × VSState :=
  if facts.length < 5 then (n, st)
  else
    match env.summarize (factsText facts) with
    | none => (n, st)
    | some summaries =>
      let p := addSummaries env u now summaries n st
      if 0 < p.1 then (p.2.1, deleteOldFacts env facts p.2.2)
      else (p.2.1, p.2.2)

/-- The fold of the per-user loop over a user list. -/
def summFold (env : SummEnv) (now : ℚ) (mems : List MemoryEntry)
    (us : List String) (p : Nat × VSState) : Nat × VSState :=
  us.foldl (fun p u => processGroup env now u (groupOf now mems u) p.1 p.2) p

/-- MemoryManager._summarize_old_memories over the surviving memories. -/
def summarizeOldMemories (env : SummEnv) (mems : List MemoryEntry)
    (now : ℚ) (st : VSState) : VSState :=
  (summFold env now mems (groupUsers now mems) (0, st)).2

/-! ### Association-list structure lemmas for the summarization proofs -/

theorem mem_keys_setA {κ ν : Type} [DecidableEq κ]
    (l : List (κ × ν)) (k : κ) (v : ν) (k1 : κ)
    (h : k1 ∈ (setA l k v).map Prod.fst) :
    k1 = k ∨ k1 ∈ l.map Prod.fst := by
  induction l with
  | nil =>
    simp [setA] at h
    exact Or.inl h
  | cons hd tl ih =>
    obtain ⟨k0, v0⟩ := hd
    simp only [setA] at h
    split at h
    · simp only [List.map_cons, List.mem_cons] at h
      rcases h with h | h
      · exact Or.inl h
      · exact Or.inr (by simp [h])
    · simp only [List.map_cons, List.mem_cons] at h
      rcases h with h | h
      · exact Or.inr (by simp [h])
      · rcases ih h with h2 | h2
        · exact Or.inl h2
        · exact Or.inr (by simp [h2])

theorem nodup_setA {κ ν : Type} [DecidableEq κ]
    (l : List (κ × ν)) (k : κ) (v : ν)
    (h : (l.map Prod.fst).Nodup) : ((setA l k v).map Prod.fst).Nodup := by
  induction l with
  | nil => simp [setA]
  | cons hd tl ih =>
    obtain ⟨k0, v0⟩ := hd
    simp only [List.map_cons, List.nodup_cons] at h
    simp only [setA]
    split
    · rename_i heq
      subst heq
      simp only [List.map_cons, List.nodup_cons]
      exact h
    · rename_i hne
      simp only [List.map_cons, List.nodup_cons]
      refine ⟨fun hm => ?_, ih h.2⟩
      rcases mem_keys_setA tl k v k0 hm with h2 | h2
      · exact hne h2
      · exact h.1 h2

theorem keys_eraseA_sublist {κ ν : Type} [DecidableEq κ]
    (l : List (κ × ν)) (k : κ) :
    ((eraseA l k).map Prod.fst).Sublist (l.map Prod.fst) := by
  induction l with
  | nil => simp [eraseA]
  | cons hd tl ih =>
    obtain ⟨k0, v0⟩ := hd
    by_cases h0 : k0 = k
    · simp only [eraseA, if_pos h0, List.map_cons]
      exact (List.Sublist.refl _).cons _
    · simp only [eraseA, if_neg h0, List.map_cons]
      exact List.Sublist.cons₂ _ ih

theorem nodup_eraseA {κ ν : Type} [DecidableEq κ]
    (l : List (κ × ν)) (k : κ)
    (h : (l.map Prod.fst).Nodup) : ((eraseA l k).map Prod.fst).Nodup :=
  (keys_eraseA_sublist l k).nodup h

theorem lookupA_eraseA_some {κ ν : Type} [DecidableEq κ]
    (l : List (κ × ν)) (k k0 : κ) (v : ν)
    (hnd : (l.map Prod.fst).Nodup)
    (h : lookupA (eraseA l k) k0 = some v) : lookupA l k0 = some v := by
  by_cases he : k = k0
  · subst he
    rw [lookupA_eraseA_self l k hnd] at h
    exact nomatch h
  · rwa [lookupA_eraseA_ne l k k0 he] at h

/-- Characterization of a successful add_memory: the collection gains (or
replaces) exactly the entry record, whose metadata is the base metadata
merged with the entry metadata; only the vector depends on the branch. -/
theorem addMemory_char (st : VSState) (e : MemoryEntry)
    (emb : Option (List ℚ)) (now : ℚ) (st2 : VSState)
    (h : st.addMemory e emb now = some st2) :
    ∃ vec, st2.entries =
      setA st.entries e.id
        ⟨e.content, vec, mergeMeta (baseMeta e now) e.metadata⟩ := by
  match hemb : emb with
  | some v =>
    by_cases hv : v = []
    · subst hv; simp [VSState.addMemory] at h
    · simp only [VSState.addMemory, if_neg hv, Option.some.injEq] at h
      exact ⟨v, by rw [← h]; rfl⟩
  | none =>
    match hef : st.embedFunc with
    | some f =>
      by_cases hg : f e.content = []
      · simp [VSState.addMemory, hef, hg] at h
      · simp only [VSState.addMemory, hef, if_neg hg,
          Option.some.injEq] at h
        exact ⟨f e.content, by rw [← h]; rfl⟩
    | none =>
      match hxo : st.externalOnly with
      | true => simp [VSState.addMemory, hef, hxo] at h
      | false =>
        simp only [VSState.addMemory, hef, hxo, if_false,
          Bool.false_eq_true, Option.some.injEq] at h
        exact ⟨st.defaultEmbed e.content, by rw [← h]; rfl⟩

theorem addMemory_lookup_ne (st : VSState) (e : MemoryEntry)
    (emb : Option (List ℚ)) (now : ℚ) (st2 : VSState) (id : String)
    (h : st.addMemory e emb now = some st2) (hne : e.id ≠ id) :
    st2.lookup id = st.lookup id := by
  obtain ⟨vec, hv⟩ := addMemory_char st e emb now st2 h
  simp only [VSState.lookup, hv]
  exact lookupA_setA_ne st.entries e.id id _ hne

theorem addMemory_lookup_self (st : VSState) (e : MemoryEntry)
    (emb : Option (List ℚ)) (now : ℚ) (st2 : VSState)
    (h : st.addMemory e emb now = some st2) :
    ∃ vec, st2.lookup e.id =
      some ⟨e.content, vec, mergeMeta (baseMeta e now) e.metadata⟩ := by
  obtain ⟨vec, hv⟩ := addMemory_char st e emb now st2 h
  exact ⟨vec, by simp only [VSState.lookup, hv, lookupA_setA_self]⟩

theorem addMemory_nodup (st : VSState) (e : MemoryEntry)
    (emb : Option (List ℚ)) (now : ℚ) (st2 : VSState)
    (h : st.addMemory e emb now = some st2)
    (hnd : (st.entries.map Prod.fst).Nodup) :
    (st2.entries.map Prod.fst).Nodup := by
  obtain ⟨vec, hv⟩ := addMemory_char st e emb now st2 h
  rw [hv]
  exact nodup_setA st.entries e.id _ hnd

/-- Observable shape of a stored summary record of the given user. -/
def sumProps (uid : String) (r : StoredRec) : Prop :=
  metaStr r.meta "memory_type" "fact" = "summary" ∧
  lookupA r.meta "importance" = some (.i 6) ∧
  lookupA r.meta "user_id" = some (.s uid)

theorem sumProps_mk (idv uid s : String) (now : ℚ) (vec : List ℚ) :
    sumProps uid ⟨s, vec,
      mergeMeta (baseMeta (mkSummary idv uid s now) now)
        (mkSummary idv uid s now).metadata⟩ :=
  ⟨rfl, rfl, rfl⟩

theorem addSummaries_counter (env : SummEnv) (uid : String) (now : ℚ)
    (ss : List String) : ∀ (n : Nat) (st : VSState),
    (addSummaries env uid now ss n st).2.1 = n + ss.length := by
  induction ss with
  | nil => intro n st; simp [addSummaries]
  | cons s rest ih =>
    intro n st
    simp only [addSummaries]
    split <;> · simp only [List.length_cons, ih]; omega

theorem addSummaries_preserve (env : SummEnv) (uid : String) (now : ℚ)
    (ss : List String) : ∀ (n : Nat) (st : VSState) (id : String),
    (∀ k, n ≤ k → env.idOf k ≠ id) →
    ((addSummaries env uid now ss n st).2.2).lookup id = st.lookup id := by
  induction ss with
  | nil => intro n st id _; rfl
  | cons s rest ih =>
    intro n st id h
    simp only [addSummaries]
    split
    · rename_i st2 hadd
      rw [ih (n + 1) st2 id (fun k hk => h k (by omega))]
      exact addMemory_lookup_ne _ _ _ _ _ _ hadd (h n (le_refl n))
    · exact ih (n + 1) st id (fun k hk => h k (by omega))

theorem addSummaries_isSome (env : SummEnv) (uid : String) (now : ℚ)
    (ss : List String) : ∀ (n : Nat) (st : VSState) (id : String),
    (st.lookup id).isSome →
    (((addSummaries env uid now ss n st).2.2).lookup id).isSome := by
  induction ss with
  | nil => intro n st id h; exact h
  | cons s rest ih =>
    intro n st id h
    simp only [addSummaries]
    split
    · rename_i st2 hadd
      refine ih (n + 1) st2 id ?_
      by_cases he : env.idOf n = id
      · subst he
        obtain ⟨vec, hv⟩ := addMemory_lookup_self _ _ _ _ _ hadd
        simp only [mkSummary] at hv
        rw [hv]
        rfl
      · rw [addMemory_lookup_ne _ _ _ _ _ _ hadd he]
        exact h
    · exact ih (n + 1) st id h

theorem addSummaries_nodup (env : SummEnv) (uid : String) (now : ℚ)
    (ss : List String) : ∀ (n : Nat) (st : VSState),
    (st.entries.map Prod.fst).Nodup →
    (((addSummaries env uid now ss n st).2.2).entries.map Prod.fst).Nodup := by
  induction ss with
  | nil => intro n st h; exact h
  | cons s rest ih =>
    intro n st h
    simp only [addSummaries]
    split
    · rename_i st2 hadd
      exact ih (n + 1) st2 (addMemory_nodup _ _ _ _ _ hadd h)
    · exact ih (n + 1) st h

theorem addSummaries_changed (env : SummEnv) (uid : String) (now : ℚ)
    (ss : List String) : ∀ (n : Nat) (st : VSState) (id : String)
    (r : StoredRec),
    ((addSummaries env uid now ss n st).2.2).lookup id = some r →
    st.lookup id = some r ∨ sumProps uid r := by
  induction ss with
  | nil => intro n st id r h; exact Or.inl h
  | cons s rest ih =>
    intro n st id r h
    simp only [addSummaries] at h
    split at h
    · rename_i st2 hadd
      rcases ih (n + 1) st2 id r h with h2 | h2
      · by_cases he : env.idOf n = id
        · subst he
          obtain ⟨vec, hv⟩ := addMemory_lookup_self _ _ _ _ _ hadd
          simp only [mkSummary] at hv h2
          rw [hv] at h2
          obtain rfl := Option.some.inj h2
          exact Or.inr (sumProps_mk _ uid s now vec)
        · rw [addMemory_lookup_ne _ _ _ _ _ _ hadd he] at h2
          exact Or.inl h2
      · exact Or.inr h2
    · exact ih (n + 1) st id r h

theorem addSummaries_added (env : SummEnv) (uid : String) (now : ℚ)
    (hinj : Function.Injective env.idOf) (ss : List String) :
    ∀ (n : Nat) (st : VSState),
    0 < (addSummaries env uid now ss n st).1 →
    ∃ k r, n ≤ k ∧ k < (addSummaries env uid now ss n st).2.1 ∧
      ((addSummaries env uid now ss n st).2.2).lookup (env.idOf k) = some r ∧
      sumProps uid r := by
  induction ss with
  | nil => intro n st h; exact absurd h (by simp [addSummaries])
  | cons s rest ih =>
    intro n st h
    cases hadd : st.addMemory (mkSummary (env.idOf n) uid s now)
      (if env.embedOracle s = [] then none
        else some (env.embedOracle s)) now with
    | some st2 =>
      simp only [addSummaries, hadd] at h ⊢
      refine ⟨n, ?_⟩
      obtain ⟨vec, hv⟩ := addMemory_lookup_self _ _ _ _ _ hadd
      refine ⟨⟨s, vec, mergeMeta (baseMeta (mkSummary (env.idOf n) uid s now)
        now) (mkSummary (env.idOf n) uid s now).metadata⟩,
        le_refl n, ?_, ?_, sumProps_mk _ uid s now vec⟩
      · rw [addSummaries_counter]
        omega
      · rw [addSummaries_preserve env uid now rest (n + 1) st2 (env.idOf n)
          (fun k hk hek => absurd (hinj hek) (by omega))]
        exact hv
    | none =>
      simp only [addSummaries, hadd] at h ⊢
      obtain ⟨k, r, hk1, hk2, hl, hp⟩ := ih (n + 1) st h
      exact ⟨k, r, by omega, hk2, hl, hp⟩

theorem deleteMemory_false (st : VSState) (id : String) :
    (st.deleteMemory false id).2 = st := rfl

theorem deleteMemory_true (st : VSState) (id : String) :
    (st.deleteMemory true id).2 =
      { st with entries := eraseA st.entries id } := rfl

theorem deleteOldFacts_ne (env : SummEnv) (facts : List MemoryEntry) :
    ∀ (st : VSState) (id : String),
    id ∉ facts.map (fun f => f.id) →
    (deleteOldFacts env facts st).lookup id = st.lookup id := by
  induction facts with
  | nil => intro st id _; rfl
  | cons f rest ih =>
    intro st id h
    simp only [List.map_cons, List.mem_cons, not_or] at h
    simp only [deleteOldFacts, List.foldl_cons]
    rw [show (rest.foldl (fun s g => (s.deleteMemory (env.deleteOk g.id)
      g.id).2) ((st.deleteMemory (env.deleteOk f.id) f.id).2)) =
      deleteOldFacts env rest ((st.deleteMemory (env.deleteOk f.id) f.id).2)
      from rfl]
    rw [ih _ id h.2]
    cases hok : env.deleteOk f.id
    · rw [deleteMemory_false]
    · rw [deleteMemory_true]
      simp only [VSState.lookup]
      exact lookupA_eraseA_ne st.entries f.id id (fun he => h.1 he.symm)

theorem deleteOldFacts_nodup (env : SummEnv) (facts : List MemoryEntry) :
    ∀ st : VSState, (st.entries.map Prod.fst).Nodup →
    ((deleteOldFacts env facts st).entries.map Prod.fst).Nodup := by
  induction facts with
  | nil => intro st h; exact h
  | cons f rest ih =>
    intro st h
    simp only [deleteOldFacts, List.foldl_cons] at ih ⊢
    refine ih _ ?_
    cases hok : env.deleteOk f.id
    · rw [deleteMemory_false]; exact h
    · rw [deleteMemory_true]
      exact nodup_eraseA st.entries f.id h

theorem deleteOldFacts_some (env : SummEnv) (facts : List MemoryEntry) :
    ∀ (st : VSState) (id : String) (r : StoredRec),
    (st.entries.map Prod.fst).Nodup →
    (deleteOldFacts env facts st).lookup id = some r →
    st.lookup id = some r := by
  induction facts with
  | nil => intro st id r _ h; exact h
  | cons f rest ih =>
    intro st id r hnd h
    simp only [deleteOldFacts, List.foldl_cons] at h
    cases hok : env.deleteOk f.id
    · rw [hok, deleteMemory_false] at h
      exact ih st id r hnd h
    · rw [hok, deleteMemory_true] at h
      have h2 := ih _ id r (nodup_eraseA st.entries f.id hnd) h
      exact lookupA_eraseA_some st.entries f.id id r hnd h2

theorem processGroup_skip (env : SummEnv) (now : ℚ) (u : String)
    (facts : List MemoryEntry) (n : Nat) (st : VSState)
    (h : facts.length < 5 ∨ env.summarize (factsText facts) = none) :
    processGroup env now u facts n st = (n, st) := by
  rcases h with h | h
  · simp [processGroup, h]
  · by_cases h5 : facts.length < 5
    · simp [processGroup, h5]
    · simp [processGroup, h5, h]

theorem processGroup_counter (env : SummEnv) (now : ℚ) (u : String)
    (facts : List MemoryEntry) (n : Nat) (st : VSState) :
    n ≤ (processGroup env now u facts n st).1 := by
  by_cases h5 : facts.length < 5
  · simp [processGroup, h5]
  · cases hs : env.summarize (factsText facts) with
    | none => simp [processGroup, h5, hs]
    | some ss =>
      simp only [processGroup, if_neg h5, hs]
      split <;> · dsimp only; rw [addSummaries_counter]; omega

theorem processGroup_preserve (env : SummEnv) (now : ℚ) (u : String)
    (facts : List MemoryEntry) (n : Nat) (st : VSState) (id : String)
    (hid : ∀ k, n ≤ k → env.idOf k ≠ id)
    (hfc : id ∉ facts.map (fun f => f.id)) :
    ((processGroup env now u facts n st).2).lookup id = st.lookup id := by
  by_cases h5 : facts.length < 5
  · simp [processGroup, h5]
  · cases hs : env.summarize (factsText facts) with
    | none => simp [processGroup, h5, hs]
    | some ss =>
      simp only [processGroup, if_neg h5, hs]
      split
      · dsimp only
        rw [deleteOldFacts_ne env facts _ id hfc]
        exact addSummaries_preserve env u now ss n st id hid
      · dsimp only
        exact addSummaries_preserve env u now ss n st id hid

theorem processGroup_nodup (env : SummEnv) (now : ℚ) (u : String)
    (facts : List MemoryEntry) (n : Nat) (st : VSState)
    (hnd : (st.entries.map Prod.fst).Nodup) :
    (((processGroup env now u facts n st).2).entries.map Prod.fst).Nodup := by
  by_cases h5 : facts.length < 5
  · simpa [processGroup, h5] using hnd
  · cases hs : env.summarize (factsText facts) with
    | none => simpa [processGroup, h5, hs] using hnd
    | some ss =>
      simp only [processGroup, if_neg h5, hs]
      split
      · dsimp only
        exact deleteOldFacts_nodup env facts _
          (addSummaries_nodup env u now ss n st hnd)
      · dsimp only
        exact addSummaries_nodup env u now ss n st hnd

theorem processGroup_changed (env : SummEnv) (now : ℚ) (u : String)
    (facts : List MemoryEntry) (n : Nat) (st : VSState) (id : String)
    (r : StoredRec) (hnd : (st.entries.map Prod.fst).Nodup)
    (h : ((processGroup env now u facts n st).2).lookup id = some r) :
    st.lookup id = some r ∨
      (sumProps u r ∧ 5 ≤ facts.length ∧
        env.summarize (factsText facts) ≠ none) := by
  by_cases h5 : facts.length < 5
  · rw [processGroup_skip env now u facts n st (Or.inl h5)] at h
    exact Or.inl h
  · cases hs : env.summarize (factsText facts) with
    | none =>
      rw [processGroup_skip env now u facts n st (Or.inr hs)] at h
      exact Or.inl h
    | some ss =>
      simp only [processGroup, if_neg h5, hs] at h
      have hconv : st.lookup id = some r ∨ sumProps u r →
          st.lookup id = some r ∨ (sumProps u r ∧ 5 ≤ facts.length ∧
            (some ss : Option (List String)) ≠ none) := fun hd =>
        hd.imp (fun hx => hx) (fun hp => ⟨hp, by omega, by simp⟩)
      split at h
      · dsimp only at h
        have h2 := deleteOldFacts_some env facts _ id r
          (addSummaries_nodup env u now ss n st hnd) h
        exact hconv (addSummaries_changed env u now ss n st id r h2)
      · dsimp only at h
        exact hconv (addSummaries_changed env u now ss n st id r h)

theorem processGroup_delete (env : SummEnv) (now : ℚ) (u : String)
    (facts : List MemoryEntry) (n : Nat) (st : VSState) (id : String)
    (hinj : Function.Injective env.idOf)
    (hfg : ∀ k, env.idOf k ∉ facts.map (fun f => f.id))
    (hsome : (st.lookup id).isSome)
    (h : ((processGroup env now u facts n st).2).lookup id = none) :
    id ∈ facts.map (fun f => f.id) ∧
    ∃ k r2, n ≤ k ∧ k < (processGroup env now u facts n st).1 ∧
      ((processGroup env now u facts n st).2).lookup (env.idOf k) = some r2 ∧
      sumProps u r2 := by
  by_cases h5 : facts.length < 5
  · rw [processGroup_skip env now u facts n st (Or.inl h5)] at h
    rw [h] at hsome
    exact absurd hsome (by simp)
  · cases hs : env.summarize (factsText facts) with
    | none =>
      rw [processGroup_skip env now u facts n st (Or.inr hs)] at h
      rw [h] at hsome
      exact absurd hsome (by simp)
    | some ss =>
      simp only [processGroup, if_neg h5, hs] at h ⊢
      by_cases hadd : 0 < (addSummaries env u now ss n st).1
      · rw [if_pos hadd] at h ⊢
        dsimp only at h ⊢
        constructor
        · by_contra hin
          rw [deleteOldFacts_ne env facts _ id hin] at h
          have := addSummaries_isSome env u now ss n st id hsome
          rw [h] at this
          exact absurd this (by simp)
        · obtain ⟨k, r2, hk1, hk2, hl, hp⟩ :=
            addSummaries_added env u now hinj ss n st hadd
          refine ⟨k, r2, hk1, hk2, ?_, hp⟩
          rw [deleteOldFacts_ne env facts _ (env.idOf k) (hfg k)]
          exact hl
      · rw [if_neg hadd] at h
        dsimp only at h
        have := addSummaries_isSome env u now ss n st id hsome
        rw [h] at this
        exact absurd this (by simp)

theorem mem_groupOf (now : ℚ) (mems : List MemoryEntry) (u : String)
    (m2 : MemoryEntry) (h : m2 ∈ groupOf now mems u) :
    m2 ∈ mems ∧ m2.user_id = u ∧ isOldFact now m2 = true := by
  simp only [groupOf, oldFactsOf, List.mem_filter] at h
  exact ⟨h.1.1, by simpa using h.2, h.1.2⟩

theorem notin_group_ids (now : ℚ) (mems : List MemoryEntry) (u : String)
    (idv : String) (h : ∀ m2 ∈ mems, idv ≠ m2.id) :
    idv ∉ (groupOf now mems u).map (fun f => f.id) := by
  intro hin
  obtain ⟨m2, hm2, he⟩ := List.mem_map.1 hin
  exact h m2 (mem_groupOf now mems u m2 hm2).1 he.symm

theorem mem_group_ids (now : ℚ) (mems : List MemoryEntry) (u : String)
    (idv : String) (h : idv ∈ (groupOf now mems u).map (fun f => f.id)) :
    ∃ m2, m2 ∈ mems ∧ m2.id = idv ∧ m2.user_id = u ∧
      isOldFact now m2 = true := by
  obtain ⟨m2, hm2, he⟩ := List.mem_map.1 h
  obtain ⟨h1, h2, h3⟩ := mem_groupOf now mems u m2 hm2
  exact ⟨m2, h1, he, h2, h3⟩

theorem summFold_cons (env : SummEnv) (now : ℚ) (mems : List MemoryEntry)
    (u : String) (us : List String) (p : Nat × VSState) :
    summFold env now mems (u :: us) p =
      summFold env now mems us
        (processGroup env now u (groupOf now mems u) p.1 p.2) := rfl

theorem summFold_preserve (env : SummEnv) (now : ℚ)
    (mems : List MemoryEntry) (us : List String) :
    ∀ (p : Nat × VSState) (id : String),
    (∀ k, p.1 ≤ k → env.idOf k ≠ id) →
    (∀ u, id ∉ (groupOf now mems u).map (fun f => f.id)) →
    ((summFold env now mems us p).2).lookup id = p.2.lookup id := by
  induction us with
  | nil => intro p id _ _; rfl
  | cons u us ih =>
    intro p id h1 h2
    rw [summFold_cons]
    rw [ih (processGroup env now u (groupOf now mems u) p.1 p.2) id
      (fun k hk =>
        h1 k (le_trans (processGroup_counter env now u _ p.1 p.2) hk)) h2]
    exact processGroup_preserve env now u _ p.1 p.2 id
      (fun k hk => h1 k hk) (h2 u)

/-- New entries of the summarization pass: summaries with importance 6,
attributed to a user whose group passed both the size and the summarizer
gates. -/
def newEntryProps (env : SummEnv) (now : ℚ) (mems : List MemoryEntry)
    (r : StoredRec) : Prop :=
  metaStr r.meta "memory_type" "fact" = "summary" ∧
  lookupA r.meta "importance" = some (.i 6) ∧
  ∃ u2, lookupA r.meta "user_id" = some (.s u2) ∧
    5 ≤ (groupOf now mems u2).length ∧
    env.summarize (factsText (groupOf now mems u2)) ≠ none

theorem summFold_new (env : SummEnv) (now : ℚ) (mems : List MemoryEntry)
    (us : List String) : ∀ (p : Nat × VSState) (id : String),
    ((p.2).entries.map Prod.fst).Nodup →
    (∀ r, p.2.lookup id = some r → newEntryProps env now mems r) →
    ∀ r, ((summFold env now mems us p).2).lookup id = some r →
      newEntryProps env now mems r := by
  induction us with
  | nil => intro p id _ hinv r h; exact hinv r h
  | cons u us ih =>
    intro p id hnd hinv r h
    rw [summFold_cons] at h
    refine ih _ id (processGroup_nodup env now u _ p.1 p.2 hnd) ?_ r h
    intro r2 h2
    rcases processGroup_changed env now u _ p.1 p.2 id r2 hnd h2 with
      h3 | ⟨hp, h5, hsumm⟩
    · exact hinv r2 h3
    · exact ⟨hp.1, hp.2.1, u, hp.2.2, h5, hsumm⟩

theorem summFold_keep (env : SummEnv) (now : ℚ) (mems : List MemoryEntry)
    (hids : (mems.map (fun m => m.id)).Nodup)
    (hfresh2 : ∀ k, ∀ m2 ∈ mems, env.idOf k ≠ m2.id)
    (m : MemoryEntry) (hm : m ∈ mems)
    (hcond : (groupOf now mems m.user_id).length < 5 ∨
      env.summarize (factsText (groupOf now mems m.user_id)) = none ∨
      isOldFact now m = false)
    (us : List String) : ∀ (p : Nat × VSState) (r : StoredRec),
    p.2.lookup m.id = some r →
    ((summFold env now mems us p).2).lookup m.id = some r := by
  induction us with
  | nil => intro p r h; exact h
  | cons u us ih =>
    intro p r h
    rw [summFold_cons]
    refine ih _ r ?_
    by_cases hin : m.id ∈ (groupOf now mems u).map (fun f => f.id)
    · obtain ⟨m2, hm2, hid2, hu2, hold2⟩ := mem_group_ids now mems u m.id hin
      have hmm : m2 = m := List.inj_on_of_nodup_map hids hm2 hm hid2
      subst hmm
      subst hu2
      rcases hcond with h5 | hsf | hof
      · rw [processGroup_skip env now m2.user_id _ p.1 p.2 (Or.inl h5)]
        exact h
      · rw [processGroup_skip env now m2.user_id _ p.1 p.2 (Or.inr hsf)]
        exact h
      · rw [hold2] at hof
        exact absurd hof (by simp)
    · rw [processGroup_preserve env now u _ p.1 p.2 m.id
        (fun k _ => hfresh2 k m hm) hin]
      exact h

theorem summFold_delete (env : SummEnv) (now : ℚ) (mems : List MemoryEntry)
    (hinj : Function.Injective env.idOf)
    (hids : (mems.map (fun m => m.id)).Nodup)
    (hfresh2 : ∀ k, ∀ m2 ∈ mems, env.idOf k ≠ m2.id)
    (m : MemoryEntry) (hm : m ∈ mems)
    (us : List String) : ∀ (p : Nat × VSState),
    ((p.2).entries.map Prod.fst).Nodup →
    (p.2.lookup m.id).isSome →
    ((summFold env now mems us p).2).lookup m.id = none →
    ∃ k r2, ((summFold env now mems us p).2).lookup (env.idOf k) = some r2 ∧
      sumProps m.user_id r2 := by
  induction us with
  | nil =>
    intro p hnd hsome h
    rw [show summFold env now mems [] p = p from rfl] at h
    rw [h] at hsome
    exact absurd hsome (by simp)
  | cons u us ih =>
    intro p hnd hsome h
    rw [summFold_cons] at h ⊢
    by_cases hqs :
      (((processGroup env now u (groupOf now mems u) p.1 p.2).2).lookup
        m.id).isSome
    · exact ih _ (processGroup_nodup env now u _ p.1 p.2 hnd) hqs h
    · have hqn := Option.not_isSome_iff_eq_none.1 hqs
      obtain ⟨hin, k, r2, hk1, hk2, hl, hp⟩ :=
        processGroup_delete env now u _ p.1 p.2 m.id hinj
          (fun k => notin_group_ids now mems u (env.idOf k)
            (fun m2 hm2 => hfresh2 k m2 hm2)) hsome hqn
      obtain ⟨m2, hm2, hid2, hu2, _⟩ := mem_group_ids now mems u m.id hin
      have hmm : m2 = m := List.inj_on_of_nodup_map hids hm2 hm hid2
      subst hmm
      refine ⟨k, r2, ?_, by rw [hu2]; exact hp⟩
      rw [summFold_preserve env now mems us _ (env.idOf k)
        (fun k2 hk2b he => absurd (hinj he) (by omega))
        (fun u2 => notin_group_ids now mems u2 (env.idOf k)
          (fun m3 hm3 => hfresh2 k m3 hm3))]
      exact hl

/-! ### Claim C2 -/

/-- C2: in every run of the summarization stage over the surviving
memories, with distinct stored ids and fresh generated ids: a surviving
entry whose per-user group of over-30-day-old facts is smaller than five,
or whose summarizer call fails, or which is not an old fact at all, is
still present and unchanged afterwards; every entry that is new after the
pass is a memory_type summary with importance 6 attributed to a user whose
group had at least five old facts and a successful summarizer call; and a
surviving entry disappears only if a freshly stored summary entry for its
own user exists in the final store - if no summary stores for a group,
every original fact of that group remains. -/
theorem summarization_gates_and_preserves (env : SummEnv)
    (mems : List MemoryEntry) (now : ℚ) (st : VSState)
    (hnd : (st.entries.map Prod.fst).Nodup)
    (hids : (mems.map (fun m => m.id)).Nodup)
    (hfresh : ∀ k, st.lookup (env.idOf k) = none)
    (hfresh2 : ∀ k, ∀ m2 ∈ mems, env.idOf k ≠ m2.id)
    (hinj : Function.Injective env.idOf) :
    (∀ m ∈ mems, ∀ r, st.lookup m.id = some r →
      ((groupOf now mems m.user_id).length < 5 ∨
        env.summarize (factsText (groupOf now mems m.user_id)) = none ∨
        isOldFact now m = false) →
      (summarizeOldMemories env mems now st).lookup m.id = some r) ∧
    (∀ id r, st.lookup id = none →
      (summarizeOldMemories env mems now st).lookup id = some r →
      newEntryProps env now mems r) ∧
    (∀ m ∈ mems, (st.lookup m.id).isSome →
      (summarizeOldMemories env mems now st).lookup m.id = none →
      ∃ id2 r2, (summarizeOldMemories env mems now st).lookup id2 = some r2 ∧
        st.lookup id2 = none ∧ sumProps m.user_id r2) := by
  refine ⟨?_, ?_, ?_⟩
  · intro m hm r hr hcond
    exact summFold_keep env now mems hids hfresh2 m hm hcond
      (groupUsers now mems) (0, st) r hr
  · intro id r hnone hsome2
    refine summFold_new env now mems (groupUsers now mems) (0, st) id hnd
      (fun r2 h2 => ?_) r hsome2
    rw [hnone] at h2
    exact nomatch h2
  · intro m hm hsome hgone
    obtain ⟨k, r2, hl, hp⟩ := summFold_delete env now mems hinj hids hfresh2
      m hm (groupUsers now mems) (0, st) hnd hsome hgone
    exact ⟨env.idOf k, r2, hl, hfresh k, hp⟩

/-- Store, environment and fact used by the C2 witness: the summarizer
always fails, so the stored fact must survive. -/
def wSumSt : VSState :=
  { externalOnly := false, embedFunc := none, defaultEmbed := fun _ => [],
    entries := [("m1", ⟨"c", [1], [("memory_type", .s "fact")]⟩)] }

def wSummEnv : SummEnv :=
  { summarize := fun _ => none, embedOracle := fun _ => [],
    idOf := fun n => ⟨List.replicate n 'x'⟩, deleteOk := fun _ => true }

def wFact : MemoryEntry :=
  { id := "m1", user_id := "u", content := "c", memory_type := "fact",
    importance := 5, timestamp := 0 }

theorem wIdOf_ne_m1 (k : Nat) : wSummEnv.idOf k ≠ "m1" := by
  intro h
  have h2 : List.replicate k 'x' = ['m', '1'] := by
    have h3 := congrArg String.data h
    simpa [wSummEnv] using h3
  cases k with
  | zero => simp at h2
  | succ k2 =>
    rw [List.replicate_succ] at h2
    injection h2 with h3 h4
    exact absurd h3 (by decide)

theorem wIdOf_inj : Function.Injective wSummEnv.idOf := by
  intro a b h
  have h2 := congrArg (fun s : String => s.data.length) h
  simpa [wSummEnv] using h2

/-- Witness for C2: with a failing summarizer, the single stored fact of
the single-user group survives the pass unchanged. -/
theorem summarization_gates_witness :
    ((wSumSt.entries.map Prod.fst).Nodup) ∧
    (([wFact].map (fun m => m.id)).Nodup) ∧
    (∀ k, wSumSt.lookup (wSummEnv.idOf k) = none) ∧
    (∀ k, ∀ m2 ∈ [wFact], wSummEnv.idOf k ≠ m2.id) ∧
    Function.Injective wSummEnv.idOf ∧
    (summarizeOldMemories wSummEnv [wFact] 0 wSumSt).lookup "m1" =
      some ⟨"c", [1], [("memory_type", .s "fact")]⟩ := by
  have hfr : ∀ k, wSumSt.lookup (wSummEnv.idOf k) = none := by
    intro k
    have hne : ¬("m1" = wSummEnv.idOf k) := fun he => wIdOf_ne_m1 k he.symm
    simp [VSState.lookup, wSumSt, lookupA, hne]
  have hfr2 : ∀ k, ∀ m2 ∈ [wFact], wSummEnv.idOf k ≠ m2.id := by
    intro k m2 hm2
    rw [List.mem_singleton] at hm2
    subst hm2
    exact wIdOf_ne_m1 k
  refine ⟨by decide, by decide, hfr, hfr2, wIdOf_inj, ?_⟩
  exact (summarization_gates_and_preserves wSummEnv [wFact] 0 wSumSt
    (by decide) (by decide) hfr hfr2 wIdOf_inj).1 wFact (by simp)
    ⟨"c", [1], [("memory_type", .s "fact")]⟩ rfl (Or.inr (Or.inl rfl))

end Kira
